import Mathlib

/- Shallow embedding of src/install_autoops_agent.py.

   Strings are modelled as `List Char`.  The Python regular-expression
   operations (`re.search`, `re.sub`) are modelled by deterministic scanners
   that are faithful to the concrete patterns used in the script: every
   pattern is a sequence of literals, `\s+`/`\s*`, `\S+`, `[^']*`, `[^"]*`,
   `[=\s]+` and `([^\s]+)`, for which greedy matching with backtracking is
   equivalent to maximal-munch scanning (the one exception, a trailing
   `--name=` run at end of string, is modelled with its backtracking
   behaviour).  The whitespace class is restricted to the ASCII range. -/

/-- Whitespace test used for the regex class `\s` (ASCII range). -/
def isSpaceCh (c : Char) : Bool :=
  c == ' ' || c == '\t' || c == '\n' || c == '\r' || c == Char.ofNat 11 || c == Char.ofNat 12

/-- The single-quote character (kept out of string literals). -/
def sqc : Char := Char.ofNat 39

/-- The double-quote character. -/
def dqc : Char := Char.ofNat 34

/-- Consume an exact literal from the front; return the remainder on success. -/
def dropLit : List Char → List Char → Option (List Char)
  | [], s => some s
  | _ :: _, [] => none
  | c :: cs, d :: ds => if c = d then dropLit cs ds else none

/-- Consume `\s+` greedily (at least one whitespace character). -/
def dropSpaces1 : List Char → Option (List Char)
  | [] => none
  | c :: cs => if isSpaceCh c then some (cs.dropWhile isSpaceCh) else none

/-- Consume `\S+` greedily (at least one non-whitespace character). -/
def dropNonSpaces1 : List Char → Option (List Char)
  | [] => none
  | c :: cs => if isSpaceCh c then none else some (cs.dropWhile (fun d => !isSpaceCh d))

/-- The variable name `AUTOOPS_ES_URL`. -/
def urlLit : List Char := "AUTOOPS_ES_URL".data

/-- The fixed single-quoted assignment `-e AUTOOPS_ES_URL='http://localhost:9200'`
    used as the replacement text of all three URL patterns. -/
def sqAsgn : List Char :=
  "-e AUTOOPS_ES_URL=".data ++ sqc :: "http://localhost:9200".data ++ [sqc]

/-- Matcher for `-e\s+AUTOOPS_ES_URL='[^']*'` at the current position,
    returning the remainder of the input after the match. -/
def matchSqRem (s : List Char) : Option (List Char) := do
  let r1 ← dropLit "-e".data s
  let r2 ← dropSpaces1 r1
  let r3 ← dropLit ("AUTOOPS_ES_URL=".data ++ [sqc]) r2
  dropLit [sqc] (r3.dropWhile (fun c => c != sqc))

/-- Matcher for `-e\s+AUTOOPS_ES_URL="[^"]*"` (remainder form). -/
def matchDqRem (s : List Char) : Option (List Char) := do
  let r1 ← dropLit "-e".data s
  let r2 ← dropSpaces1 r1
  let r3 ← dropLit ("AUTOOPS_ES_URL=".data ++ [dqc]) r2
  dropLit [dqc] (r3.dropWhile (fun c => c != dqc))

/-- Matcher for `-e\s+AUTOOPS_ES_URL=\S+` (remainder form). -/
def matchNqRem (s : List Char) : Option (List Char) := do
  let r1 ← dropLit "-e".data s
  let r2 ← dropSpaces1 r1
  let r3 ← dropLit "AUTOOPS_ES_URL=".data r2
  dropNonSpaces1 r3

/-- Matcher for `docker\s+run\s+` (remainder form). -/
def matchDockerRunRem (s : List Char) : Option (List Char) := do
  let r1 ← dropLit "docker".data s
  let r2 ← dropSpaces1 r1
  let r3 ← dropLit "run".data r2
  dropSpaces1 r3

/-- Matcher for `--network\s+\S+` (remainder form). -/
def matchNetworkRem (s : List Char) : Option (List Char) := do
  let r1 ← dropLit "--network".data s
  let r2 ← dropSpaces1 r1
  dropNonSpaces1 r2

/-- Matcher for `--net\s+\S+` (remainder form). -/
def matchNetRem (s : List Char) : Option (List Char) := do
  let r1 ← dropLit "--net".data s
  let r2 ← dropSpaces1 r1
  dropNonSpaces1 r2

/-- Turn a remainder-returning matcher into a matched-length matcher. -/
def remLen (f : List Char → Option (List Char)) (s : List Char) : Option Nat :=
  (f s).map (fun r => s.length - r.length)

def matchSq : List Char → Option Nat := remLen matchSqRem
def matchDq : List Char → Option Nat := remLen matchDqRem
def matchNq : List Char → Option Nat := remLen matchNqRem
def matchDockerRun : List Char → Option Nat := remLen matchDockerRunRem
def matchNetwork : List Char → Option Nat := remLen matchNetworkRem
def matchNet : List Char → Option Nat := remLen matchNetRem

/-- Class `[=\s]` of the `--name` pattern. -/
def isNameSep (c : Char) : Bool := c == '=' || isSpaceCh c

/-- Argument part `[=\s]+([^\s]+)` of the `--name` pattern, with Python's
    backtracking at end of string (a trailing `=` inside the separator run can
    serve as the group). -/
def nameArg : List Char → Option (List Char)
  | [] => none
  | c :: cs =>
    if isNameSep c then
      match cs.dropWhile isNameSep with
      | [] => if (cs.takeWhile isNameSep).contains '=' then some ['='] else none
      | d :: ds => some ((d :: ds).takeWhile (fun x => !isSpaceCh x))
    else none

/-- Matcher for `--name[=\s]+([^\s]+)` returning the captured group. -/
def matchNameGroup (s : List Char) : Option (List Char) :=
  (dropLit "--name".data s).bind nameArg

/-- Scan all start positions left to right and return the first hit
    (the behaviour of `re.search`). -/
def findFirstSome {α : Type} (f : List Char → Option α) : List Char → Option α
  | [] => none
  | c :: cs =>
    match f (c :: cs) with
    | some x => some x
    | none => findFirstSome f cs

/-- extract_container_name: group of the first `--name[=\s]+([^\s]+)` match. -/
def extract_container_name (s : List Char) : Option (List Char) :=
  findFirstSome matchNameGroup s

/-- Truthiness of `re.search(...)`: does the pattern match at some position? -/
def hasMatch (M : List Char → Option Nat) : List Char → Bool
  | [] => false
  | c :: cs => (M (c :: cs)).isSome || hasMatch M cs

/-- Fuelled worker for `re.sub` with a constant replacement: scan left to
    right, replace each non-overlapping match, never rescanning the
    replacement.  All matchers used in the script match at least one
    character, so the `some 0` and fuel-exhaustion branches are unreachable
    when the fuel is at least the length of the input. -/
def subAllF (M : List Char → Option Nat) (r : List Char) : Nat → List Char → List Char
  | _, [] => []
  | 0, s => s
  | fuel + 1, c :: cs =>
    match M (c :: cs) with
    | some (n + 1) => r ++ subAllF M r fuel (cs.drop n)
    | _ => c :: subAllF M r fuel cs

/-- `re.sub(pattern, repl, s)` with a constant replacement text. -/
def subAll (M : List Char → Option Nat) (r s : List Char) : List Char :=
  subAllF M r s.length s

/-- `re.sub(pattern, repl, s, count=1)` where the replacement is a function of
    the matched text (models the backreference `\1` of the insertion subs). -/
def subFirstF (M : List Char → Option Nat) (f : List Char → List Char) : List Char → List Char
  | [] => []
  | c :: cs =>
    match M (c :: cs) with
    | some n => f ((c :: cs).take n) ++ (c :: cs).drop n
    | none => c :: subFirstF M f cs

/-- Number of positions of `s` at which `p` starts as a substring (occurrences
    may overlap); used to state the "appears exactly once" properties. -/
def occ (p s : List Char) : Nat :=
  (List.range s.length).countP (fun i => p.isPrefixOf (s.drop i))

/-- Matcher for a fixed literal string; `subAll` with it is Python
    `str.replace` (leftmost, non-overlapping, replacement not rescanned). -/
def litMatch (pat : List Char) (s : List Char) : Option Nat :=
  if pat ≠ [] ∧ pat.isPrefixOf s then some pat.length else none

/-- Python `str.replace(pat, rep)` for a non-empty pattern. -/
def pyReplace (pat rep s : List Char) : List Char := subAll (litMatch pat) rep s

/-- Python `str.strip()` (ASCII whitespace). -/
def pyStrip (s : List Char) : List Char :=
  ((s.dropWhile isSpaceCh).reverse.dropWhile isSpaceCh).reverse

/-- The backslash character. -/
def bsl : Char := Char.ofNat 92

/-- The assignment text produced by the insertion replacement: the source
    replacement is the raw string `\1-e AUTOOPS_ES_URL=\'http://localhost:9200\' `,
    and `re.sub` keeps the unknown template escape `\'` verbatim, so the
    inserted assignment carries a literal backslash before each single quote. -/
def bsAsgn : List Char :=
  "-e AUTOOPS_ES_URL=".data ++ bsl :: sqc :: "http://localhost:9200".data ++ [bsl, sqc]

/-- Text inserted after `docker run ` when no URL assignment pattern matched. -/
def urlIns : List Char := bsAsgn ++ [' ']

/-- fix_es_url: try the single-quoted, double-quoted and unquoted assignment
    patterns in order; replace all matches of the first pattern that occurs
    (the replacement is the plain single-quoted assignment); otherwise insert
    after `docker\s+run\s+` (count=1) with the raw-string replacement
    `\1-e AUTOOPS_ES_URL=\'http://localhost:9200\' `, whose backslashes
    survive into the output. -/
def fix_es_url (s : List Char) : List Char :=
  if hasMatch matchSq s then subAll matchSq sqAsgn s
  else if hasMatch matchDq s then subAll matchDq sqAsgn s
  else if hasMatch matchNq s then subAll matchNq sqAsgn s
  else subFirstF matchDockerRun (fun m => m ++ urlIns) s

/-- The fixed network flag text `--network host`. -/
def netFlag : List Char := "--network host".data

/-- ensure_host_network: if `--network\s+\S+` or `--net\s+\S+` occurs, rewrite
    all matches of both patterns (in that order) to `--network host`;
    otherwise insert `--network host ` after `docker\s+run\s+` (count=1). -/
def ensure_host_network (s : List Char) : List Char :=
  if hasMatch matchNetwork s || hasMatch matchNet s then
    subAll matchNet netFlag (subAll matchNetwork netFlag s)
  else
    subFirstF matchDockerRun (fun m => m ++ netFlag ++ [' ']) s

/-- The credential placeholder token of main (braces written as escapes). -/
def placeholder : List Char := "\x7b\x7bid:api_key\x7d\x7d".data

/-- The three normalizer passes of main in order: credential substitution,
    URL override, network override (the substitution is the identity when the
    placeholder does not occur, exactly as the guarded `str.replace` is). -/
def normalizeCommand (value s : List Char) : List Char :=
  ensure_host_network (fix_es_url (pyReplace placeholder value s))

/-- Result of reading the local log file `es_startup.log`. -/
inductive FileRead where
  | absent
  | content (text : List Char)
  | readError
deriving DecidableEq

/-- Character class `[A-Za-z0-9+/=_-]` of the API-key patterns. -/
def isKeyChar (c : Char) : Bool :=
  (decide (65 ≤ c.toNat) && decide (c.toNat ≤ 90)) ||
  (decide (97 ≤ c.toNat) && decide (c.toNat ≤ 122)) ||
  (decide (48 ≤ c.toNat) && decide (c.toNat ≤ 57)) ||
  c == '+' || c == '/' || c == '=' || c == '_' || c == '-'

/-- Suffix part `\s*([A-Za-z0-9+/=_-]+)` of the API-key patterns, returning
    the captured group. -/
def keyGroup (t : List Char) : Option (List Char) :=
  match t.dropWhile isSpaceCh with
  | [] => none
  | c :: cs => if isKeyChar c then some ((c :: cs).takeWhile isKeyChar) else none

/-- Literal head of the first API-key pattern (key icon, space, `API key:`). -/
def keyMark1 : List Char := Char.ofNat 0x1F511 :: " API key:".data

/-- Literal head of the fallback API-key pattern. -/
def keyMark2 : List Char := "API key:".data

/-- One API-key pattern at the current position. -/
def matchKey (mark : List Char) (s : List Char) : Option (List Char) :=
  (dropLit mark s).bind keyGroup

/-- get_api_key_from_log: `None` when the file is missing, the icon pattern
    first, then the plain pattern; every exception is turned into `None`. -/
def get_api_key_from_log : FileRead → Option (List Char)
  | .absent => none
  | .readError => none
  | .content text =>
    match findFirstSome (matchKey keyMark1) text with
    | some k => some k
    | none => findFirstSome (matchKey keyMark2) text

/-- Python truthiness of an optional string. -/
def truthy : Option (List Char) → Bool
  | none => false
  | some s => !s.isEmpty

/-- get_api_key: log file, then the `ES_LOCAL_API_KEY` environment variable,
    then the hidden prompt; raises ValueError when the prompted key is empty. -/
def get_api_key (file : FileRead) (env : Option (List Char)) (entered : List Char) :
    Except (List Char) (List Char) :=
  let k1 := get_api_key_from_log file
  if truthy k1 then .ok (k1.getD [])
  else if truthy env then .ok (env.getD [])
  else if entered.isEmpty then .error "API key cannot be empty".data
  else .ok entered

/-- Outcome of one `subprocess.run(..., check=True)` call. -/
inductive RunResult where
  | ok (stdout stderr : List Char)
  | fail (returncode : Int) (stdout stderr : List Char)
deriving DecidableEq

/-- State observable after `execute_command`: whether the local script file
    still exists and what the function returned. -/
structure ExecOutcome where
  fileExists : Bool
  returned : Bool
deriving DecidableEq

/-- execute_command after the script file has been written: upload the file,
    then run it remotely; a CalledProcessError from either step is caught,
    the local file is kept for debugging and False is returned; the file is
    removed (only) after both steps succeed, and True is returned. -/
def executeCommandRemote (upload exec : RunResult) : ExecOutcome :=
  match upload with
  | .fail _ _ _ => { fileExists := true, returned := false }
  | .ok _ _ =>
    match exec with
    | .fail _ _ _ => { fileExists := true, returned := false }
    | .ok _ _ => { fileExists := false, returned := true }

/-- First two lines written to the script file. -/
def shebang : List Char := "#!/bin/bash\n\n".data

/-- The abort-on-error line (with its blank line). -/
def setE : List Char := "set -e\n\n".data

/-- The fixed comment-and-echo header written before the command. -/
def runHeader : List Char :=
  "# Run the docker container\necho ".data ++
    sqc :: "Starting new container...".data ++ sqc :: "\n".data

/-- The container-cleanup block, with the extracted name spliced in at the six
    places of the source f-string. -/
def cleanupBlock (n : List Char) : List Char :=
  "# Remove existing container if it exists\necho ".data ++
  sqc :: "Checking for existing container: ".data ++ n ++
  sqc :: "\nif docker ps -a | grep -q ".data ++
  sqc :: n ++
  sqc :: "; then\n    echo ".data ++
  sqc :: (Char.ofNat 0x1F5D1 :: Char.ofNat 0xFE0F :: "  Found existing container: ".data) ++ n ++
  sqc :: "\n    echo ".data ++
  sqc :: "Stopping container...".data ++
  sqc :: "\n    docker stop ".data ++ n ++ " 2>/dev/null || true\n    echo ".data ++
  sqc :: "Removing container...".data ++
  sqc :: "\n    docker rm -f ".data ++ n ++ "\n    echo ".data ++
  sqc :: "✓ Container removed successfully".data ++
  sqc :: "\nelse\n    echo ".data ++
  sqc :: "✓ No existing container found".data ++
  sqc :: "\nfi\n\n".data

/-- The script file body written by execute_command: the container name is
    extracted from the raw command, the command is normalized (URL pass, net
    pass) and stripped, and the parts are written in source order, with a
    final newline added when the command does not end in one. -/
def scriptContent (command : List Char) : List Char :=
  let name := extract_container_name command
  let c1 := pyStrip (ensure_host_network (fix_es_url command))
  shebang ++ setE ++
    (match name with
     | some n => cleanupBlock n
     | none => []) ++
    runHeader ++ c1 ++
    (if c1.getLast? = some '\n' then [] else ['\n'])

/-- read_multiline_input: lines up to the first empty line, joined by `\n`. -/
def read_multiline_input (stdin : List (List Char)) : List Char :=
  List.intercalate "\n".data (stdin.takeWhile (fun l => !l.isEmpty))

/-- One answer of confirm_execution: `.strip().lower()` then y/yes/n/no. -/
def answerValue (a : List Char) : Option Bool :=
  let t := (pyStrip a).map Char.toLower
  if t = "y".data ∨ t = "yes".data then some true
  else if t = "n".data ∨ t = "no".data then some false
  else none

/-- confirm_execution: the loop returns the first recognized answer. -/
def confirmDecision (answers : List (List Char)) : Option Bool :=
  answers.findSome? answerValue

/-- Observable outcome of main: `exitNoCommand` is `sys.exit(1)` on empty
    input, `raisedEmptyKey` the uncaught ValueError of get_api_key,
    `cancelled` the `sys.exit(0)` on a `no` answer, `executed` the remote
    execution path, and `promptPending` the still-looping confirmation. -/
inductive MainOutcome where
  | exitNoCommand
  | raisedEmptyKey
  | cancelled
  | executed (ok : Bool)
  | promptPending
deriving DecidableEq

/-- main: read the multi-line command, exit(1) when its strip is empty,
    substitute the placeholder (resolving the key) when present, confirm, and
    either exit(0) on `no` or run execute_command on `yes`. -/
def mainRun (stdin : List (List Char)) (file : FileRead) (env : Option (List Char))
    (entered : List Char) (answers : List (List Char)) (upload exec : RunResult) :
    MainOutcome :=
  let cmd := read_multiline_input stdin
  if (pyStrip cmd).isEmpty then .exitNoCommand
  else
    let step : Except (List Char) (List Char) :=
      if hasMatch (litMatch placeholder) cmd then
        (get_api_key file env entered).map (fun k => pyReplace placeholder k cmd)
      else .ok cmd
    match step with
    | .error _ => .raisedEmptyKey
    | .ok _ =>
      match confirmDecision answers with
      | none => .promptPending
      | some false => .cancelled
      | some true => .executed (executeCommandRemote upload exec).returned

/-- The script shape asserted by the specification for C9: shebang, the
    abort-on-error line, the optional cleanup block, then the command text
    with a trailing newline.  This definition follows the claim's wording
    (for comparison with `scriptContent`, which follows the source). -/
def scriptClaimed (command : List Char) : List Char :=
  let name := extract_container_name command
  let c1 := pyStrip (ensure_host_network (fix_es_url command))
  shebang ++ setE ++
    (match name with
     | some n => cleanupBlock n
     | none => []) ++
    c1 ++
    (if c1.getLast? = some '\n' then [] else ['\n'])

/-- Heads of `dropWhile` results never satisfy the dropped predicate. -/
theorem head?_dropWhile_not (p : Char → Bool) :
    ∀ l : List Char, ∀ c : Char, (l.dropWhile p).head? = some c → p c = false := by
  intro l
  induction l with
  | nil => intro c h; simp [List.dropWhile] at h
  | cons a t ih =>
    intro c h
    by_cases hp : p a = true
    · rw [List.dropWhile_cons_of_pos hp] at h
      exact ih c h
    · rw [List.dropWhile_cons_of_neg hp] at h
      simp at h
      subst h
      simpa using hp

/-- A stripped command never ends in whitespace. -/
theorem pyStrip_getLast?_not_space (s : List Char) (c : Char)
    (h : (pyStrip s).getLast? = some c) : isSpaceCh c = false := by
  unfold pyStrip at h
  rw [List.getLast?_reverse] at h
  exact head?_dropWhile_not isSpaceCh _ c h

/-- A stripped command never ends in a newline, so the script writer always
    appends one. -/
theorem pyStrip_not_endswith_nl (s : List Char) :
    ¬ ((pyStrip s).getLast? = some '\n') := by
  intro h
  exact absurd (pyStrip_getLast?_not_space s '\n' h) (by decide)

/-- Claim C1 (counterexample): a command with two unquoted URL assignments has
    both rewritten, so the fixed assignment appears twice, not exactly once. -/
theorem c1_counterexample :
    occ sqAsgn (fix_es_url ("docker run -e AUTOOPS_ES_URL=a -e AUTOOPS_ES_URL=b img".data)) = 2 := by
  decide

/-- Claim C2 (counterexample): a command with two network flags has both
    rewritten, so `--network host` appears twice, not exactly once. -/
theorem c2_counterexample :
    occ netFlag (ensure_host_network ("docker run --net a --network b img".data)) = 2 := by
  decide

/-- Claim C3 (counterexample): replacing the one placeholder occurrence of
    this command re-creates the placeholder from the surrounding text, so the
    token still occurs after substitution. -/
theorem c3_counterexample :
    occ placeholder
      (pyReplace placeholder "key".data
        "\x7b\x7bid:api_\x7b\x7bid:api_key\x7d\x7d\x7d\x7d".data) = 1 := by
  decide

/-- Claim C4 (counterexample): on the same command the second application of
    the three passes substitutes the re-created placeholder again, so the
    composed normalization is not idempotent. -/
theorem c4_counterexample :
    normalizeCommand "key".data
        (normalizeCommand "key".data "\x7b\x7bid:api_\x7b\x7bid:api_key\x7d\x7d\x7d\x7d".data) ≠
      normalizeCommand "key".data "\x7b\x7bid:api_\x7b\x7bid:api_key\x7d\x7d\x7d\x7d".data := by
  decide

/-- Claim C8 (counterexample): a double-quoted assignment is rewritten to the
    single-quoted fixed assignment; the double-quoted form does not appear in
    the result, so the original quoting style is not kept. -/
theorem c8_counterexample :
    occ ("-e AUTOOPS_ES_URL=".data ++ dqc :: "http://localhost:9200".data ++ [dqc])
        (fix_es_url ("docker run -e AUTOOPS_ES_URL=".data ++ dqc ::
          "http://old:9200".data ++ dqc :: " img".data)) = 0 ∧
    occ sqAsgn
        (fix_es_url ("docker run -e AUTOOPS_ES_URL=".data ++ dqc ::
          "http://old:9200".data ++ dqc :: " img".data)) = 1 := by
  constructor <;> decide

/-- Claim C9 (counterexample): the script written by the source contains a
    fixed comment-and-echo header between the cleanup block and the command,
    so it is not exactly the four claimed parts. -/
theorem c9_counterexample :
    scriptContent ("docker run img".data) ≠ scriptClaimed ("docker run img".data) := by
  decide

/-- Claim C5: when the upload or the remote execution raises
    CalledProcessError, the local script file still exists afterwards and
    execute_command returns False; the file is deleted exactly on the
    all-steps-succeeded path. -/
theorem c5_failure_keeps_script (upload exec : RunResult) :
    ((∃ rc o e, upload = .fail rc o e) ∨ (∃ rc o e, exec = .fail rc o e) →
      (executeCommandRemote upload exec).fileExists = true ∧
      (executeCommandRemote upload exec).returned = false) ∧
    ((executeCommandRemote upload exec).fileExists = false ↔
      (∃ o e, upload = .ok o e) ∧ (∃ o e, exec = .ok o e)) := by
  cases upload <;> cases exec <;> simp [executeCommandRemote]

/-- Claim C5 (witness): a failing upload with a succeeding remote execution
    keeps the file and reports failure. -/
theorem c5_witness :
    (executeCommandRemote (.fail 1 [] []) (.ok [] [])).fileExists = true ∧
    (executeCommandRemote (.fail 1 [] []) (.ok [] [])).returned = false :=
  (c5_failure_keeps_script (.fail 1 [] []) (.ok [] [])).1 (Or.inl ⟨1, [], [], rfl⟩)

/-- Claim C7: get_api_key prefers the log-file key, then the environment
    variable, then the prompted key, returning the first non-empty value, and
    raises ValueError when the prompted key is empty. -/
theorem c7_api_key_priority (file : FileRead) (env : Option (List Char)) (entered : List Char) :
    (∀ k, get_api_key_from_log file = some k → k ≠ [] → get_api_key file env entered = .ok k) ∧
    (truthy (get_api_key_from_log file) = false →
      ∀ e, env = some e → e ≠ [] → get_api_key file env entered = .ok e) ∧
    (truthy (get_api_key_from_log file) = false → truthy env = false → entered ≠ [] →
      get_api_key file env entered = .ok entered) ∧
    (truthy (get_api_key_from_log file) = false → truthy env = false → entered = [] →
      get_api_key file env entered = .error ("API key cannot be empty".data)) := by
  refine ⟨?_, ?_, ?_, ?_⟩
  · intro k hk hne
    have ht : truthy (get_api_key_from_log file) = true := by
      rw [hk]
      simp [truthy, List.isEmpty_iff, hne]
    unfold get_api_key
    rw [if_pos ht, hk]
    simp
  · intro ht e he hne
    have ht2 : truthy env = true := by
      rw [he]
      simp [truthy, List.isEmpty_iff, hne]
    unfold get_api_key
    rw [if_neg (by simp [ht]), if_pos ht2, he]
    simp
  · intro ht he hne
    unfold get_api_key
    rw [if_neg (by simp [ht]), if_neg (by simp [he]),
      if_neg (by simp [List.isEmpty_iff, hne])]
  · intro ht he hne
    unfold get_api_key
    rw [if_neg (by simp [ht]), if_neg (by simp [he]),
      if_pos (by simp [List.isEmpty_iff, hne])]

/-- Claim C7 (witness): the priority order on concrete sources. -/
theorem c7_witness :
    get_api_key (.content (keyMark1 ++ " k1".data)) none [] = .ok ("k1".data) ∧
    get_api_key .absent (some ("e1".data)) [] = .ok ("e1".data) ∧
    get_api_key .absent none ("p1".data) = .ok ("p1".data) ∧
    get_api_key .absent none [] = .error ("API key cannot be empty".data) :=
  ⟨(c7_api_key_priority (.content (keyMark1 ++ " k1".data)) none []).1 ("k1".data)
      (by decide) (by decide),
   (c7_api_key_priority .absent (some ("e1".data)) []).2.1 (by decide) ("e1".data) rfl
      (by decide),
   (c7_api_key_priority .absent none ("p1".data)).2.2.1 (by decide) (by decide) (by decide),
   (c7_api_key_priority .absent none []).2.2.2 (by decide) (by decide) rfl⟩

/-- Claim C9 (amended): the generated script is exactly: shebang, the
    abort-on-error line, the cleanup block (present precisely when a container
    name was extracted from the command), the fixed comment-and-echo run
    header, and the stripped normalized command followed by exactly one
    newline. -/
theorem c9_script_layout (command : List Char) :
    scriptContent command =
      shebang ++ setE ++
        (match extract_container_name command with
         | some n => cleanupBlock n
         | none => []) ++
        runHeader ++ pyStrip (ensure_host_network (fix_es_url command)) ++ ['\n'] := by
  have hn := pyStrip_not_endswith_nl (ensure_host_network (fix_es_url command))
  simp only [scriptContent, if_neg hn]

/-- Claim C10: a read error on the log file yields None rather than an
    exception, so get_api_key behaves exactly as when the file is absent and
    falls through to the environment variable. -/
theorem c10_log_error_fallthrough (env : Option (List Char)) (entered : List Char) :
    get_api_key_from_log .readError = none ∧
    get_api_key .readError env entered = get_api_key .absent env entered :=
  ⟨rfl, rfl⟩

/-- Claim C6: main exits with status 1 (without reaching any remote step)
    exactly when the stripped joined multi-line input is empty, and exits
    with status 0 when the confirmation answer is no (assuming key resolution
    does not raise). -/
theorem c6_exit_codes (stdin : List (List Char)) (file : FileRead) (env : Option (List Char))
    (entered : List Char) (answers : List (List Char)) (upload exec : RunResult) :
    (mainRun stdin file env entered answers upload exec = .exitNoCommand ↔
      pyStrip (read_multiline_input stdin) = []) ∧
    (pyStrip (read_multiline_input stdin) ≠ [] →
      (∀ k, get_api_key file env entered ≠ .error k) →
      confirmDecision answers = some false →
      mainRun stdin file env entered answers upload exec = .cancelled) := by
  by_cases hb : pyStrip (read_multiline_input stdin) = []
  · have hmain : mainRun stdin file env entered answers upload exec = .exitNoCommand := by
      unfold mainRun
      rw [if_pos (by simp [List.isEmpty_iff, hb])]
    exact ⟨⟨fun _ => hb, fun _ => hmain⟩, fun hne _ _ => absurd hb hne⟩
  · have hbe : ¬ ((pyStrip (read_multiline_input stdin)).isEmpty = true) := by
      simp [List.isEmpty_iff, hb]
    have hstep : ∀ st : Except (List Char) (List Char),
        (match st with
         | Except.error _ => MainOutcome.raisedEmptyKey
         | Except.ok _ =>
           match confirmDecision answers with
           | none => MainOutcome.promptPending
           | some false => MainOutcome.cancelled
           | some true => MainOutcome.executed (executeCommandRemote upload exec).returned) ≠
          MainOutcome.exitNoCommand := by
      intro st
      rcases st with k | k
      · simp
      · rcases hcd : confirmDecision answers with _ | b
        · simp
        · rcases b <;> simp
    constructor
    · unfold mainRun
      rw [if_neg hbe]
      exact ⟨fun h => absurd h (hstep _), fun h => absurd h hb⟩
    · intro _ hok hconf
      unfold mainRun
      rw [if_neg hbe]
      by_cases hph : hasMatch (litMatch placeholder) (read_multiline_input stdin) = true
      · rcases hgk : get_api_key file env entered with k | k
        · exact absurd hgk (hok k)
        · rw [if_pos hph]
          simp [Except.map, hconf]
      · rw [if_neg hph]
        simp [hconf]

/-- Claim C6 (witness): empty input exits 1; a non-empty command answered
    `n` is cancelled with exit 0. -/
theorem c6_witness :
    mainRun [] .absent none [] [] (.ok [] []) (.ok [] []) = .exitNoCommand ∧
    mainRun ["x".data] .absent none ("p".data) ["n".data] (.ok [] []) (.ok [] []) = .cancelled :=
  ⟨(c6_exit_codes [] .absent none [] [] (.ok [] []) (.ok [] [])).1.mpr (by decide),
   (c6_exit_codes ["x".data] .absent none ("p".data) ["n".data] (.ok [] []) (.ok [] [])).2
     (by decide)
     (fun k h => by
       rw [show get_api_key .absent none ("p".data) = .ok ("p".data) from rfl] at h
       exact Except.noConfusion h)
     (by decide)⟩

/- ### Occurrence counting: basic laws -/

/-- No occurrence of `p` in `s` means no position matches. -/
theorem occ_eq_zero_iff (p s : List Char) :
    occ p s = 0 ↔ ∀ i, i < s.length → ¬ p <+: s.drop i := by
  unfold occ
  rw [List.countP_eq_zero]
  constructor
  · intro h i hi hp
    exact h i (List.mem_range.mpr hi) (List.isPrefixOf_iff_prefix.mpr hp)
  · intro h i hi hp
    exact h i (List.mem_range.mp hi) (List.isPrefixOf_iff_prefix.mp hp)

/-- A matching position yields a positive count. -/
theorem occ_pos_of_matches (p s : List Char) (i : Nat) (hi : i < s.length)
    (hp : p <+: s.drop i) : 0 < occ p s := by
  unfold occ
  rw [List.countP_pos_iff]
  exact ⟨i, List.mem_range.mpr hi, List.isPrefixOf_iff_prefix.mpr hp⟩

/-- Two distinct matching positions force a count of at least two. -/
theorem two_le_occ (p s : List Char) (i j : Nat) (hij : i ≠ j) (hi : i < s.length)
    (hj : j < s.length) (hpi : p <+: s.drop i) (hpj : p <+: s.drop j) :
    2 ≤ occ p s := by
  unfold occ
  rw [List.countP_eq_length_filter]
  have hmem : ∀ k, k < s.length → p <+: s.drop k →
      k ∈ (List.range s.length).filter (fun x => p.isPrefixOf (s.drop x)) := by
    intro k hk hp
    rw [List.mem_filter]
    exact ⟨List.mem_range.mpr hk, List.isPrefixOf_iff_prefix.mpr hp⟩
  have h1 : ({i, j} : Finset Nat) ⊆
      ((List.range s.length).filter (fun x => p.isPrefixOf (s.drop x))).toFinset := by
    intro x hx
    rw [List.mem_toFinset]
    rcases Finset.mem_insert.mp hx with h | h
    · rw [h]; exact hmem _ hi hpi
    · rw [Finset.mem_singleton.mp h]; exact hmem _ hj hpj
  calc 2 = ({i, j} : Finset Nat).card := (Finset.card_pair hij).symm
    _ ≤ ((List.range s.length).filter (fun x => p.isPrefixOf (s.drop x))).toFinset.card :=
        Finset.card_le_card h1
    _ ≤ ((List.range s.length).filter (fun x => p.isPrefixOf (s.drop x))).length :=
        List.toFinset_card_le _

/-- With exactly one occurrence, any two matching positions coincide. -/
theorem occ_unique (p s : List Char) (h : occ p s = 1) (i j : Nat) (hi : i < s.length)
    (hj : j < s.length) (hpi : p <+: s.drop i) (hpj : p <+: s.drop j) : i = j := by
  by_contra hij
  have := two_le_occ p s i j hij hi hj hpi hpj
  omega

/-- A prefix short enough to fit into `a` ignores the appended `b`. -/
theorem prefix_append_iff_left (p a b : List Char) (h : p.length ≤ a.length) :
    p <+: a ++ b ↔ p <+: a := by
  constructor
  · intro hp
    have ht : (a ++ b).take p.length = a.take p.length := by
      rw [List.take_append_eq_append_take, Nat.sub_eq_zero_of_le h, List.take_zero,
        List.append_nil]
    rw [List.prefix_iff_eq_take] at hp ⊢
    exact hp.trans ht
  · intro hp
    exact hp.trans (List.prefix_append a b)

/-- A suffix short enough to fit into `b` ignores the prepended `a`. -/
theorem suffix_append_iff_right (p a b : List Char) (h : p.length ≤ b.length) :
    p <:+ a ++ b ↔ p <:+ b := by
  constructor
  · intro hp
    rw [← List.reverse_prefix] at hp ⊢
    rw [List.reverse_append] at hp
    exact (prefix_append_iff_left _ _ _ (by simpa using h)).mp hp
  · intro hp
    exact hp.trans (List.suffix_append a b)

/-- A prefix of `x ++ y` longer than `x` determines `x` and continues into `y`. -/
theorem prefix_append_split (p x y : List Char) (h : x.length ≤ p.length)
    (hp : p <+: x ++ y) : p.take x.length = x ∧ p.drop x.length <+: y := by
  rcases hp with ⟨r, hr⟩
  constructor
  · have h1 := congrArg (List.take x.length) hr
    rw [List.take_append_eq_append_take, Nat.sub_eq_zero_of_le h, List.take_zero,
      List.append_nil, List.take_left] at h1
    exact h1
  · have h2 := congrArg (List.drop x.length) hr
    rw [List.drop_append_of_le_length h, List.drop_left] at h2
    exact ⟨r, h2⟩

/-- Occurrence counts add across an append when no occurrence straddles
    the boundary. -/
theorem occ_append (p a b : List Char)
    (hcross : ∀ k, 0 < k → k < p.length → ¬ (p.take k <:+ a ∧ p.drop k <+: b)) :
    occ p (a ++ b) = occ p a + occ p b := by
  unfold occ
  rw [List.length_append, List.range_add, List.countP_append, List.countP_map]
  congr 1
  · apply List.countP_congr
    intro i hi
    rw [List.mem_range] at hi
    rw [List.drop_append_of_le_length (le_of_lt hi)]
    by_cases hlen : p.length ≤ a.length - i
    · rw [List.isPrefixOf_iff_prefix, List.isPrefixOf_iff_prefix]
      exact prefix_append_iff_left p (a.drop i) b (by rw [List.length_drop]; exact hlen)
    · constructor
      · intro hp
        exfalso
        rw [List.isPrefixOf_iff_prefix] at hp
        have hk1 : 0 < a.length - i := by omega
        have hk2 : a.length - i < p.length := by omega
        have hdl : (a.drop i).length = a.length - i := List.length_drop i a
        have hsplit := prefix_append_split p (a.drop i) b (by rw [hdl]; omega) hp
        apply hcross (a.length - i) hk1 hk2
        constructor
        · rw [← hdl, hsplit.1]
          exact List.drop_suffix i a
        · rw [← hdl]
          exact hsplit.2
      · intro hp
        exfalso
        rw [List.isPrefixOf_iff_prefix] at hp
        have := hp.length_le
        rw [List.length_drop] at this
        omega
  · apply List.countP_congr
    intro j hj
    rw [List.mem_range] at hj
    show (p.isPrefixOf ((a ++ b).drop (a.length + j))) = true ↔
      (p.isPrefixOf (b.drop j)) = true
    rw [List.drop_append]

/-- Zero occurrences are inherited by prefixes. -/
theorem occ_zero_take (p s : List Char) (m : Nat) (h : occ p s = 0) :
    occ p (s.take m) = 0 := by
  rw [occ_eq_zero_iff] at h ⊢
  intro i hi hp
  rw [List.length_take] at hi
  apply h i (by omega)
  have : (s.take m).drop i <+: s.drop i := by
    rw [List.drop_take]
    exact List.take_prefix _ _
  exact hp.trans this

/-- Zero occurrences are inherited by suffixes. -/
theorem occ_zero_drop (p s : List Char) (m : Nat) (h : occ p s = 0) :
    occ p (s.drop m) = 0 := by
  rw [occ_eq_zero_iff] at h ⊢
  intro i hi hp
  rw [List.length_drop] at hi
  rw [List.drop_drop] at hp
  exact h (m + i) (by omega) hp

/-- Zero occurrences pass to the left part of an append. -/
theorem occ_append_zero_left (p a b : List Char) (h : occ p (a ++ b) = 0) : occ p a = 0 := by
  have h2 := occ_zero_take p (a ++ b) a.length h
  rwa [List.take_left] at h2

/-- Zero occurrences pass to the right part of an append. -/
theorem occ_append_zero_right (p a b : List Char) (h : occ p (a ++ b) = 0) : occ p b = 0 := by
  have h2 := occ_zero_drop p (a ++ b) a.length h
  rwa [List.drop_left] at h2

/-- The pattern matches at the seam of an explicit decomposition. -/
theorem matches_at_decomp (p x y : List Char) : p <+: (x ++ p ++ y).drop x.length := by
  rw [List.append_assoc, List.drop_left]
  exact List.prefix_append p y

/-- An explicit decomposition witnesses a positive count. -/
theorem occ_pos_of_decomp (p x y : List Char) (hp : p ≠ []) :
    0 < occ p (x ++ p ++ y) := by
  apply occ_pos_of_matches p (x ++ p ++ y) x.length ?_ (matches_at_decomp p x y)
  have := List.length_pos.mpr hp
  simp [List.length_append]
  omega

/- ### re.search / re.sub characterizations -/

/-- `hasMatch` is truth of a match at some position. -/
theorem hasMatch_iff (M : List Char → Option Nat) :
    ∀ s, hasMatch M s = true ↔ ∃ i, i < s.length ∧ (M (s.drop i)).isSome = true := by
  intro s
  induction s with
  | nil => simp [hasMatch]
  | cons c cs ih =>
    rw [hasMatch, Bool.or_eq_true, ih]
    constructor
    · rintro (h | ⟨i, hi, hsome⟩)
      · exact ⟨0, by simp, h⟩
      · exact ⟨i + 1, by simpa using hi, by simpa using hsome⟩
    · rintro ⟨i, hi, hsome⟩
      cases i with
      | zero => exact Or.inl (by simpa using hsome)
      | succ i => exact Or.inr ⟨i, by simpa using hi, by simpa using hsome⟩

/-- A failed search means no position matches. -/
theorem hasMatch_false_all (M : List Char → Option Nat) (s : List Char)
    (h : hasMatch M s = false) : ∀ i, i < s.length → M (s.drop i) = none := by
  intro i hi
  cases hM : M (s.drop i) with
  | none => rfl
  | some n =>
    exfalso
    have h2 : hasMatch M s = true := (hasMatch_iff M s).mpr ⟨i, hi, by rw [hM]; rfl⟩
    rw [h] at h2
    exact Bool.false_ne_true h2

/-- A match at a position makes the search succeed. -/
theorem hasMatch_of_match (M : List Char → Option Nat) (s : List Char) (i n : Nat)
    (hi : i < s.length) (hM : M (s.drop i) = some n) : hasMatch M s = true :=
  (hasMatch_iff M s).mpr ⟨i, hi, by rw [hM]; rfl⟩

/-- A successful search yields a leftmost matching position. -/
theorem exists_first_match (M : List Char → Option Nat) (s : List Char)
    (h : hasMatch M s = true) :
    ∃ i, i < s.length ∧ (M (s.drop i)).isSome = true ∧ ∀ j, j < i → M (s.drop j) = none := by
  obtain ⟨i, hi, hsome⟩ := (hasMatch_iff M s).mp h
  have hex : ∃ k, (M (s.drop k)).isSome = true := ⟨i, hsome⟩
  refine ⟨Nat.find hex, ?_, Nat.find_spec hex, ?_⟩
  · exact lt_of_le_of_lt (Nat.find_min' hex hsome) hi
  · intro j hj
    have hmin := Nat.find_min hex hj
    cases hM : M (s.drop j) with
    | none => rfl
    | some n => exact absurd (by rw [hM]; rfl) hmin

/-- Fuel does not matter once it covers the input length. -/
theorem subAllF_fuel (M : List Char → Option Nat) (r : List Char) :
    ∀ (f1 : Nat) (s : List Char) (f2 : Nat), s.length ≤ f1 → s.length ≤ f2 →
      subAllF M r f1 s = subAllF M r f2 s := by
  intro f1
  induction f1 with
  | zero =>
    intro s f2 h1 _
    have hs : s = [] := List.length_eq_zero.mp (Nat.le_zero.mp h1)
    subst hs
    cases f2 <;> rfl
  | succ f1 ih =>
    intro s f2 h1 h2
    cases s with
    | nil => cases f2 <;> rfl
    | cons c cs =>
      cases f2 with
      | zero => simp at h2
      | succ f2 =>
        rw [List.length_cons] at h1 h2
        rcases hm : M (c :: cs) with _ | n
        · simp only [subAllF, hm]
          exact congrArg (List.cons c) (ih cs f2 (by omega) (by omega))
        · rcases n with _ | n
          · simp only [subAllF, hm]
            exact congrArg (List.cons c) (ih cs f2 (by omega) (by omega))
          · simp only [subAllF, hm]
            refine congrArg (r ++ ·) (ih (cs.drop n) f2 ?_ ?_) <;>
              (rw [List.length_drop]; omega)

/-- Unfolding `subAll` at a matched head. -/
theorem subAll_cons_match (M : List Char → Option Nat) (r : List Char) (c : Char)
    (cs : List Char) (n : Nat) (hm : M (c :: cs) = some (n + 1)) :
    subAll M r (c :: cs) = r ++ subAll M r (cs.drop n) := by
  unfold subAll
  rw [show (c :: cs).length = cs.length + 1 from rfl]
  simp only [subAllF, hm]
  exact congrArg (r ++ ·) (subAllF_fuel M r cs.length (cs.drop n) (cs.drop n).length
    (by rw [List.length_drop]; omega) (le_refl _))

/-- Unfolding `subAll` at an unmatched head. -/
theorem subAll_cons_nomatch (M : List Char → Option Nat) (r : List Char) (c : Char)
    (cs : List Char) (hm : M (c :: cs) = none) :
    subAll M r (c :: cs) = c :: subAll M r cs := by
  unfold subAll
  rw [show (c :: cs).length = cs.length + 1 from rfl]
  simp only [subAllF, hm]

/-- `re.sub` is the identity when nothing matches. -/
theorem subAll_eq_self (M : List Char → Option Nat) (r : List Char) :
    ∀ s, (∀ i, i < s.length → M (s.drop i) = none) → subAll M r s = s := by
  intro s
  induction s with
  | nil => intro _; rfl
  | cons c cs ih =>
    intro h
    rw [subAll_cons_nomatch M r c cs (h 0 (by simp))]
    rw [ih (fun i hi => h (i + 1) (by simpa using hi))]

/-- `re.sub` rewrites the leftmost match and goes on after it. -/
theorem subAll_first (M : List Char → Option Nat) (r : List Char) :
    ∀ (s : List Char) (i n : Nat), (∀ j, j < i → M (s.drop j) = none) →
      M (s.drop i) = some (n + 1) → i < s.length →
      subAll M r s = s.take i ++ r ++ subAll M r (s.drop (i + (n + 1))) := by
  intro s
  induction s with
  | nil => intro i n _ _ hi; simp at hi
  | cons c cs ih =>
    intro i n hfirst hM hi
    cases i with
    | zero =>
      rw [List.drop_zero] at hM
      rw [subAll_cons_match M r c cs n hM]
      simp [List.drop_succ_cons]
    | succ i =>
      have h0 : M (c :: cs) = none := by
        have := hfirst 0 (Nat.succ_pos i)
        rwa [List.drop_zero] at this
      rw [subAll_cons_nomatch M r c cs h0]
      rw [ih i n (fun j hj => hfirst (j + 1) (by omega)) hM (by simpa using hi)]
      have harith : i + 1 + (n + 1) = i + (n + 1) + 1 := by omega
      rw [harith, List.drop_succ_cons, List.take_succ_cons]
      simp [List.cons_append]

/-- One match overall: `re.sub` rewrites exactly that slice. -/
theorem subAll_single (M : List Char → Option Nat) (r s : List Char) (i n : Nat)
    (hfirst : ∀ j, j < i → M (s.drop j) = none)
    (hM : M (s.drop i) = some (n + 1)) (hi : i < s.length)
    (hafter : ∀ q, q < (s.drop (i + (n + 1))).length → M ((s.drop (i + (n + 1))).drop q) = none) :
    subAll M r s = s.take i ++ r ++ s.drop (i + (n + 1)) := by
  rw [subAll_first M r s i n hfirst hM hi, subAll_eq_self M r _ hafter]

/-- `re.sub(count=1)` is the identity when nothing matches. -/
theorem subFirstF_eq_self (M : List Char → Option Nat) (f : List Char → List Char) :
    ∀ s, (∀ i, i < s.length → M (s.drop i) = none) → subFirstF M f s = s := by
  intro s
  induction s with
  | nil => intro _; rfl
  | cons c cs ih =>
    intro h
    have h0 : M (c :: cs) = none := by
      have h1 := h 0 (by simp)
      rwa [List.drop_zero] at h1
    simp only [subFirstF, h0]
    rw [ih (fun i hi => h (i + 1) (by simpa using hi))]

/-- `re.sub(count=1)` rewrites the leftmost match only. -/
theorem subFirstF_first (M : List Char → Option Nat) (f : List Char → List Char) :
    ∀ (s : List Char) (i n : Nat), (∀ j, j < i → M (s.drop j) = none) →
      M (s.drop i) = some n → i < s.length →
      subFirstF M f s = s.take i ++ f ((s.drop i).take n) ++ s.drop (i + n) := by
  intro s
  induction s with
  | nil => intro i n _ _ hi; simp at hi
  | cons c cs ih =>
    intro i n hfirst hM hi
    cases i with
    | zero =>
      rw [List.drop_zero] at hM
      simp only [subFirstF, hM]
      simp
    | succ i =>
      have h0 : M (c :: cs) = none := by
        have h1 := hfirst 0 (Nat.succ_pos i)
        rwa [List.drop_zero] at h1
      simp only [subFirstF, h0]
      rw [ih i n (fun j hj => hfirst (j + 1) (by omega)) hM (by simpa using hi)]
      have harith : i + 1 + n = i + n + 1 := by omega
      rw [harith, List.drop_succ_cons, List.take_succ_cons, List.drop_succ_cons]
      simp [List.cons_append]

/- ### Structure of the individual matchers -/

/-- The `--net` literal shared by both network patterns. -/
def netLit : List Char := "--net".data

/-- A consumed literal is a prefix. -/
theorem dropLit_eq (lit : List Char) :
    ∀ t r, dropLit lit t = some r → t = lit ++ r := by
  induction lit with
  | nil =>
    intro t r h
    rw [dropLit] at h
    simpa using Option.some.inj h
  | cons c cs ih =>
    intro t r h
    cases t with
    | nil => exact absurd h (by rw [dropLit]; exact Option.noConfusion)
    | cons d ds =>
      rw [dropLit] at h
      by_cases hc : c = d
      · rw [if_pos hc] at h
        rw [List.cons_append, ← hc, ih ds r h]
      · rw [if_neg hc] at h
        exact absurd h Option.noConfusion

/-- `\s+` consumes a non-empty prefix. -/
theorem dropSpaces1_eq (t r : List Char) (h : dropSpaces1 t = some r) :
    ∃ w, t = w ++ r ∧ w ≠ [] := by
  cases t with
  | nil => exact absurd h (by rw [dropSpaces1]; exact Option.noConfusion)
  | cons c cs =>
    rw [dropSpaces1] at h
    by_cases hc : isSpaceCh c = true
    · rw [if_pos hc] at h
      refine ⟨c :: cs.takeWhile isSpaceCh, ?_, by simp⟩
      rw [List.cons_append]
      have h2 := Option.some.inj h
      rw [← h2, List.takeWhile_append_dropWhile]
    · rw [if_neg hc] at h
      exact absurd h Option.noConfusion

/-- `\S+` consumes a non-empty prefix. -/
theorem dropNonSpaces1_eq (t r : List Char) (h : dropNonSpaces1 t = some r) :
    ∃ w, t = w ++ r ∧ w ≠ [] := by
  cases t with
  | nil => exact absurd h (by rw [dropNonSpaces1]; exact Option.noConfusion)
  | cons c cs =>
    rw [dropNonSpaces1] at h
    by_cases hc : isSpaceCh c = true
    · rw [if_pos hc] at h
      exact absurd h Option.noConfusion
    · rw [if_neg hc] at h
      refine ⟨c :: cs.takeWhile (fun d => !isSpaceCh d), ?_, by simp⟩
      rw [List.cons_append]
      have h2 := Option.some.inj h
      rw [← h2, List.takeWhile_append_dropWhile]

/-- Unpacking the length-returning wrapper. -/
theorem remLen_eq (f : List Char → Option (List Char)) (t : List Char) (n : Nat)
    (h : remLen f t = some n) : ∃ r, f t = some r ∧ n = t.length - r.length := by
  unfold remLen at h
  cases hf : f t with
  | none => rw [hf] at h; exact absurd h Option.noConfusion
  | some r =>
    rw [hf] at h
    exact ⟨r, rfl, (Option.some.inj h).symm⟩

/-- A non-empty pattern matching below a drop keeps the index in range. -/
theorem lt_length_of_prefix_drop (p s : List Char) (j : Nat) (hp : p ≠ [])
    (h : p <+: s.drop j) : j < s.length := by
  by_contra hj
  rw [List.drop_eq_nil_of_le (by omega)] at h
  exact hp (List.prefix_nil.mp h)

/-- Zero occurrences of a sub-pattern kill the super-pattern. -/
theorem occ_zero_of_sub (q p x : List Char) (hq : q <+: p) (h : occ q x = 0) :
    occ p x = 0 := by
  rw [occ_eq_zero_iff] at h ⊢
  intro i hi hp
  exact h i hi (hq.trans hp)

/-- Cross-boundary refuter from the right-hand side, for a concrete block
    `cR` longer than the pattern minus one. -/
theorem noCross_right (p a cR y : List Char) (hlen : p.length ≤ cR.length + 1)
    (hdec : ∀ k, k < p.length → (k = 0 ∨ ¬ p.drop k <+: cR)) :
    ∀ k, 0 < k → k < p.length → ¬ (p.take k <:+ a ∧ p.drop k <+: cR ++ y) := by
  rintro k hk1 hk2 ⟨_, hpre⟩
  have hlen2 : (p.drop k).length ≤ cR.length := by
    rw [List.length_drop]
    omega
  rcases hdec k hk2 with h | h
  · omega
  · exact h ((prefix_append_iff_left _ _ _ hlen2).mp hpre)

/-- Cross-boundary refuter from the left-hand side, for a concrete block
    `cL` longer than the pattern minus one. -/
theorem noCross_left (p x cL b : List Char) (hlen : p.length ≤ cL.length + 1)
    (hdec : ∀ k, k < p.length → (k = 0 ∨ ¬ p.take k <:+ cL)) :
    ∀ k, 0 < k → k < p.length → ¬ (p.take k <:+ x ++ cL ∧ p.drop k <+: b) := by
  rintro k hk1 hk2 ⟨hsuf, _⟩
  have hlen2 : (p.take k).length ≤ cL.length := by
    rw [List.length_take]
    omega
  rcases hdec k hk2 with h | h
  · omega
  · exact h ((suffix_append_iff_right _ _ _ hlen2).mp hsuf)

/-- `dropWhile` skips a block it accepts entirely. -/
theorem dropWhile_append_of_all (p : Char → Bool) (x y : List Char)
    (hx : ∀ c ∈ x, p c = true) : (x ++ y).dropWhile p = y.dropWhile p := by
  induction x with
  | nil => rfl
  | cons c cs ih =>
    rw [List.cons_append, List.dropWhile_cons_of_pos (hx c (by simp))]
    exact ih (fun d hd => hx d (by simp [hd]))

/-- The single-quote pattern contains the variable name inside its match. -/
theorem matchSqRem_decomp (t r : List Char) (h : matchSqRem t = some r) :
    ∃ u mid, t = u ++ urlLit ++ mid ++ r ∧ "-e".data <+: t := by
  unfold matchSqRem at h
  cases h1 : dropLit "-e".data t with
  | none => rw [h1] at h; exact absurd h Option.noConfusion
  | some r1 =>
    rw [h1] at h
    simp only [Option.bind_eq_bind, Option.some_bind] at h
    cases h2 : dropSpaces1 r1 with
    | none => rw [h2] at h; exact absurd h Option.noConfusion
    | some r2 =>
      rw [h2] at h
      simp only [Option.bind_eq_bind, Option.some_bind] at h
      cases h3 : dropLit ("AUTOOPS_ES_URL=".data ++ [sqc]) r2 with
      | none => rw [h3] at h; exact absurd h Option.noConfusion
      | some r3 =>
        rw [h3] at h
        simp only [Option.bind_eq_bind, Option.some_bind] at h
        have ht1 := dropLit_eq _ t r1 h1
        obtain ⟨w, hw, _⟩ := dropSpaces1_eq r1 r2 h2
        have ht3 := dropLit_eq _ r2 r3 h3
        have ht4 := dropLit_eq _ _ r h
        have hsplit : r3 = r3.takeWhile (fun c => c != sqc) ++
            r3.dropWhile (fun c => c != sqc) := (List.takeWhile_append_dropWhile _ _).symm
        refine ⟨"-e".data ++ w, ('=' :: sqc :: (r3.takeWhile (fun c => c != sqc) ++ [sqc])), ?_, ?_⟩
        · rw [ht1, hw, ht3]
          conv_lhs => rw [hsplit, ht4]
          have hlit : ("AUTOOPS_ES_URL=".data ++ [sqc]) =
              urlLit ++ ('=' :: [sqc]) := by decide
          rw [hlit]
          simp [List.append_assoc]
        · rw [ht1]
          exact List.prefix_append _ _

/-- The double-quote pattern contains the variable name inside its match. -/
theorem matchDqRem_decomp (t r : List Char) (h : matchDqRem t = some r) :
    ∃ u mid, t = u ++ urlLit ++ mid ++ r ∧ "-e".data <+: t := by
  unfold matchDqRem at h
  cases h1 : dropLit "-e".data t with
  | none => rw [h1] at h; exact absurd h Option.noConfusion
  | some r1 =>
    rw [h1] at h
    simp only [Option.bind_eq_bind, Option.some_bind] at h
    cases h2 : dropSpaces1 r1 with
    | none => rw [h2] at h; exact absurd h Option.noConfusion
    | some r2 =>
      rw [h2] at h
      simp only [Option.bind_eq_bind, Option.some_bind] at h
      cases h3 : dropLit ("AUTOOPS_ES_URL=".data ++ [dqc]) r2 with
      | none => rw [h3] at h; exact absurd h Option.noConfusion
      | some r3 =>
        rw [h3] at h
        simp only [Option.bind_eq_bind, Option.some_bind] at h
        have ht1 := dropLit_eq _ t r1 h1
        obtain ⟨w, hw, _⟩ := dropSpaces1_eq r1 r2 h2
        have ht3 := dropLit_eq _ r2 r3 h3
        have ht4 := dropLit_eq _ _ r h
        have hsplit : r3 = r3.takeWhile (fun c => c != dqc) ++
            r3.dropWhile (fun c => c != dqc) := (List.takeWhile_append_dropWhile _ _).symm
        refine ⟨"-e".data ++ w, ('=' :: dqc :: (r3.takeWhile (fun c => c != dqc) ++ [dqc])), ?_, ?_⟩
        · rw [ht1, hw, ht3]
          conv_lhs => rw [hsplit, ht4]
          have hlit : ("AUTOOPS_ES_URL=".data ++ [dqc]) =
              urlLit ++ ('=' :: [dqc]) := by decide
          rw [hlit]
          simp [List.append_assoc]
        · rw [ht1]
          exact List.prefix_append _ _

/-- The unquoted pattern contains the variable name inside its match. -/
theorem matchNqRem_decomp (t r : List Char) (h : matchNqRem t = some r) :
    ∃ u mid, t = u ++ urlLit ++ mid ++ r ∧ "-e".data <+: t := by
  unfold matchNqRem at h
  cases h1 : dropLit "-e".data t with
  | none => rw [h1] at h; exact absurd h Option.noConfusion
  | some r1 =>
    rw [h1] at h
    simp only [Option.bind_eq_bind, Option.some_bind] at h
    cases h2 : dropSpaces1 r1 with
    | none => rw [h2] at h; exact absurd h Option.noConfusion
    | some r2 =>
      rw [h2] at h
      simp only [Option.bind_eq_bind, Option.some_bind] at h
      cases h3 : dropLit "AUTOOPS_ES_URL=".data r2 with
      | none => rw [h3] at h; exact absurd h Option.noConfusion
      | some r3 =>
        rw [h3] at h
        simp only [Option.bind_eq_bind, Option.some_bind] at h
        have ht1 := dropLit_eq _ t r1 h1
        obtain ⟨w, hw, _⟩ := dropSpaces1_eq r1 r2 h2
        have ht3 := dropLit_eq _ r2 r3 h3
        obtain ⟨w2, hw2, _⟩ := dropNonSpaces1_eq r3 r h
        refine ⟨"-e".data ++ w, ('=' :: w2), ?_, ?_⟩
        · rw [ht1, hw, ht3, hw2]
          have hlit : "AUTOOPS_ES_URL=".data = urlLit ++ ['='] := by decide
          rw [hlit]
          simp [List.append_assoc]
        · rw [ht1]
          exact List.prefix_append _ _

/-- Network pattern: `--net` heads the match, which is at least 5 long. -/
theorem matchNetworkRem_decomp (t r : List Char) (h : matchNetworkRem t = some r) :
    ∃ mid, t = netLit ++ mid ++ r := by
  unfold matchNetworkRem at h
  cases h1 : dropLit "--network".data t with
  | none => rw [h1] at h; exact absurd h Option.noConfusion
  | some r1 =>
    rw [h1] at h
    simp only [Option.bind_eq_bind, Option.some_bind] at h
    cases h2 : dropSpaces1 r1 with
    | none => rw [h2] at h; exact absurd h Option.noConfusion
    | some r2 =>
      rw [h2] at h
      simp only [Option.bind_eq_bind, Option.some_bind] at h
      have ht1 := dropLit_eq _ t r1 h1
      obtain ⟨w, hw, _⟩ := dropSpaces1_eq r1 r2 h2
      obtain ⟨w2, hw2, _⟩ := dropNonSpaces1_eq r2 r h
      refine ⟨"work".data ++ w ++ w2, ?_⟩
      rw [ht1, hw, hw2]
      have hlit : "--network".data = netLit ++ "work".data := by decide
      rw [hlit]
      simp [List.append_assoc]

/-- Short network pattern: `--net` heads the match. -/
theorem matchNetRem_decomp (t r : List Char) (h : matchNetRem t = some r) :
    ∃ mid, t = netLit ++ mid ++ r := by
  unfold matchNetRem at h
  cases h1 : dropLit "--net".data t with
  | none => rw [h1] at h; exact absurd h Option.noConfusion
  | some r1 =>
    rw [h1] at h
    simp only [Option.bind_eq_bind, Option.some_bind] at h
    cases h2 : dropSpaces1 r1 with
    | none => rw [h2] at h; exact absurd h Option.noConfusion
    | some r2 =>
      rw [h2] at h
      simp only [Option.bind_eq_bind, Option.some_bind] at h
      have ht1 := dropLit_eq _ t r1 h1
      obtain ⟨w, hw, _⟩ := dropSpaces1_eq r1 r2 h2
      obtain ⟨w2, hw2, _⟩ := dropNonSpaces1_eq r2 r h
      refine ⟨w ++ w2, ?_⟩
      rw [ht1, hw, hw2]
      simp [netLit, List.append_assoc]

/-- Derived form of the decompositions: a match of a URL pattern contains the
    variable name at an offset inside the matched length, and starts
    with `-e`. -/
theorem matchSq_lit (t : List Char) (n : Nat) (h : matchSq t = some n) :
    (∃ off, off + urlLit.length ≤ n ∧ urlLit <+: t.drop off) ∧ "-e".data <+: t := by
  obtain ⟨r, hrem, hn⟩ := remLen_eq _ t n h
  obtain ⟨u, mid, ht, hhead⟩ := matchSqRem_decomp t r hrem
  refine ⟨⟨u.length, ?_, ?_⟩, hhead⟩
  · rw [hn, ht]
    simp only [List.length_append]
    omega
  · rw [ht]
    rw [List.append_assoc, List.append_assoc, List.drop_left]
    exact List.prefix_append _ _

/-- See `matchSq_lit`. -/
theorem matchDq_lit (t : List Char) (n : Nat) (h : matchDq t = some n) :
    (∃ off, off + urlLit.length ≤ n ∧ urlLit <+: t.drop off) ∧ "-e".data <+: t := by
  obtain ⟨r, hrem, hn⟩ := remLen_eq _ t n h
  obtain ⟨u, mid, ht, hhead⟩ := matchDqRem_decomp t r hrem
  refine ⟨⟨u.length, ?_, ?_⟩, hhead⟩
  · rw [hn, ht]
    simp only [List.length_append]
    omega
  · rw [ht]
    rw [List.append_assoc, List.append_assoc, List.drop_left]
    exact List.prefix_append _ _

/-- See `matchSq_lit`. -/
theorem matchNq_lit (t : List Char) (n : Nat) (h : matchNq t = some n) :
    (∃ off, off + urlLit.length ≤ n ∧ urlLit <+: t.drop off) ∧ "-e".data <+: t := by
  obtain ⟨r, hrem, hn⟩ := remLen_eq _ t n h
  obtain ⟨u, mid, ht, hhead⟩ := matchNqRem_decomp t r hrem
  refine ⟨⟨u.length, ?_, ?_⟩, hhead⟩
  · rw [hn, ht]
    simp only [List.length_append]
    omega
  · rw [ht]
    rw [List.append_assoc, List.append_assoc, List.drop_left]
    exact List.prefix_append _ _

/-- A network-pattern match starts with `--net` and is at least 5 long. -/
theorem matchNetwork_lit (t : List Char) (n : Nat) (h : matchNetwork t = some n) :
    netLit.length ≤ n ∧ netLit <+: t := by
  obtain ⟨r, hrem, hn⟩ := remLen_eq _ t n h
  obtain ⟨mid, ht⟩ := matchNetworkRem_decomp t r hrem
  constructor
  · rw [hn, ht]
    simp only [List.length_append]
    omega
  · rw [ht, List.append_assoc]
    exact List.prefix_append _ _

/-- See `matchNetwork_lit`. -/
theorem matchNet_lit (t : List Char) (n : Nat) (h : matchNet t = some n) :
    netLit.length ≤ n ∧ netLit <+: t := by
  obtain ⟨r, hrem, hn⟩ := remLen_eq _ t n h
  obtain ⟨mid, ht⟩ := matchNetRem_decomp t r hrem
  constructor
  · rw [hn, ht]
    simp only [List.length_append]
    omega
  · rw [ht, List.append_assoc]
    exact List.prefix_append _ _

/- ### Concrete matcher computations -/

/-- The single-quote pattern recognizes the fixed assignment wherever it
    occurs, with match length 42. -/
theorem matchSqRem_sqAsgn (rest : List Char) : matchSqRem (sqAsgn ++ rest) = some rest := rfl

/-- Length of the fixed assignment. -/
theorem sqAsgn_length : sqAsgn.length = 41 := by decide

/-- Length form of `matchSqRem_sqAsgn`. -/
theorem matchSq_sqAsgn (rest : List Char) : matchSq (sqAsgn ++ rest) = some 41 := by
  unfold matchSq remLen
  rw [matchSqRem_sqAsgn]
  simp [List.length_append, sqAsgn_length]

/-- The long network pattern matches wherever `--network host` occurs. -/
theorem matchNetwork_isSome_netFlag (rest : List Char) :
    (matchNetwork (netFlag ++ rest)).isSome = true := by
  have h : matchNetworkRem (netFlag ++ rest) =
      some (("ost".data ++ rest).dropWhile (fun d => !isSpaceCh d)) := rfl
  unfold matchNetwork remLen
  rw [h]
  rfl

/-- The short network pattern never matches at `--network host` itself. -/
theorem matchNet_netFlag (rest : List Char) : matchNet (netFlag ++ rest) = none := rfl

/-- At the end of the text, `--network host` matches with length exactly 14. -/
theorem matchNetwork_netFlag_nil : matchNetwork (netFlag ++ []) = some 14 := rfl

/-- Before whitespace, `--network host` matches with length exactly 14. -/
theorem matchNetwork_netFlag_space (c : Char) (v : List Char) (hc : isSpaceCh c = true) :
    matchNetwork (netFlag ++ c :: v) = some 14 := by
  have h : matchNetworkRem (netFlag ++ c :: v) =
      some (("ost".data ++ c :: v).dropWhile (fun d => !isSpaceCh d)) := rfl
  have h2 : ("ost".data ++ c :: v).dropWhile (fun d => !isSpaceCh d) = c :: v := by
    rw [dropWhile_append_of_all _ _ _ (by decide)]
    rw [List.dropWhile_cons_of_neg (by simp [hc])]
  unfold matchNetwork remLen
  rw [h, h2]
  simp [netFlag, List.length_append]

/-- The fixed assignment exposes the variable name three characters in. -/
theorem sqAsgn_drop3 : sqAsgn.drop 3 = urlLit ++ ('=' :: sqc :: "http://localhost:9200".data ++ [sqc]) := by
  decide

/-- The fixed network flag contains `--net` only at its head. -/
theorem netFlag_netLit_occ : occ netLit netFlag = 1 := by decide

/-- The fixed assignment occurs exactly once in itself. -/
theorem sqAsgn_occ_self : occ sqAsgn sqAsgn = 1 := by decide

/-- `--network host` occurs exactly once in itself. -/
theorem netFlag_occ_self : occ netFlag netFlag = 1 := by decide

/-- The backslash-quoted assignment occurs exactly once in the inserted text. -/
theorem bsAsgn_occ_urlIns : occ bsAsgn urlIns = 1 := by decide

/-- The unquoted pattern recognizes the backslash-quoted inserted assignment
    wherever it occurs (a backslash is not whitespace, so `\S+` matches). -/
theorem matchNqRem_bsAsgn (rest : List Char) :
    matchNqRem (bsAsgn ++ rest) = some (rest.dropWhile (fun d => !isSpaceCh d)) := rfl

/-- `isSome` form of `matchNqRem_bsAsgn`. -/
theorem matchNq_isSome_bsAsgn (rest : List Char) :
    (matchNq (bsAsgn ++ rest)).isSome = true := by
  unfold matchNq remLen
  rw [matchNqRem_bsAsgn]
  rfl

/-- Insertion branch of fix_es_url: when no URL pattern matches but
    `docker run` occurs, the backslash-quoted assignment is inserted and
    appears exactly once. -/
theorem fix_es_url_insert_occ (s : List Char)
    (h1 : hasMatch matchSq s = false) (h2 : hasMatch matchDq s = false)
    (h3 : hasMatch matchNq s = false) (h4 : hasMatch matchDockerRun s = true) :
    occ bsAsgn (fix_es_url s) = 1 := by
  unfold fix_es_url
  rw [if_neg (by simp [h1]), if_neg (by simp [h2]), if_neg (by simp [h3])]
  obtain ⟨i, hi, hsome, hfirst⟩ := exists_first_match matchDockerRun s h4
  obtain ⟨n, hn⟩ := Option.isSome_iff_exists.mp hsome
  rw [subFirstF_first matchDockerRun _ s i n hfirst hn hi]
  have hA : s.take i ++ (s.drop i).take n = s.take (i + n) := (List.take_add s i n).symm
  have hshape : s.take i ++ ((s.drop i).take n ++ urlIns) ++ s.drop (i + n) =
      s.take (i + n) ++ (urlIns ++ s.drop (i + n)) := by
    rw [← hA]
    simp [List.append_assoc]
  rw [hshape]
  have hocc_any : ∀ j, bsAsgn <+: s.drop j → False := by
    intro j hj
    have hjlen : j < s.length := lt_length_of_prefix_drop _ s j (by decide) hj
    obtain ⟨rest, hr⟩ := hj
    have hm : (matchNq (s.drop j)).isSome = true := by
      rw [← hr]
      exact matchNq_isSome_bsAsgn rest
    obtain ⟨m, hm2⟩ := Option.isSome_iff_exists.mp hm
    have ht := hasMatch_of_match matchNq s j m hjlen hm2
    rw [h3] at ht
    exact Bool.false_ne_true ht
  have hzA : occ bsAsgn (s.take (i + n)) = 0 := by
    rw [occ_eq_zero_iff]
    intro q hq hp
    have htr : (s.take (i + n)).drop q <+: s.drop q := by
      rw [List.drop_take]
      exact List.take_prefix _ _
    exact hocc_any q (hp.trans htr)
  have hzB : occ bsAsgn (s.drop (i + n)) = 0 := by
    rw [occ_eq_zero_iff]
    intro q hq hp
    rw [List.drop_drop] at hp
    exact hocc_any (i + n + q) hp
  rw [occ_append bsAsgn _ _ (noCross_right bsAsgn _ urlIns _ (by decide) (by decide))]
  rw [occ_append bsAsgn urlIns _ (noCross_left bsAsgn [] urlIns _ (by decide) (by decide))]
  rw [hzA, hzB, bsAsgn_occ_urlIns]

/-- Replace branch of fix_es_url, generically in the matcher: with a unique
    occurrence of the variable name and a match present, the substitution
    leaves exactly one fixed assignment. -/
theorem subAll_url_single (M : List Char → Option Nat) (s : List Char)
    (hlit : ∀ t n, M t = some n → ∃ off, off + urlLit.length ≤ n ∧ urlLit <+: t.drop off)
    (hm : hasMatch M s = true)
    (hocc : occ urlLit s = 1) :
    occ sqAsgn (subAll M sqAsgn s) = 1 := by
  have hul : urlLit.length = 14 := by decide
  obtain ⟨i, hi, hsome, hfirst⟩ := exists_first_match M s hm
  obtain ⟨n, hn⟩ := Option.isSome_iff_exists.mp hsome
  obtain ⟨off, hoffn, hoffp⟩ := hlit _ n hn
  rw [List.drop_drop] at hoffp
  have hP1len : i + off < s.length :=
    lt_length_of_prefix_drop urlLit s (i + off) (by decide) hoffp
  obtain ⟨n', rfl⟩ : ∃ n', n = n' + 1 := by
    cases n with
    | zero => omega
    | succ k => exact ⟨k, rfl⟩
  have hafter : ∀ q, q < (s.drop (i + (n' + 1))).length →
      M ((s.drop (i + (n' + 1))).drop q) = none := by
    intro q hq
    cases hM2 : M ((s.drop (i + (n' + 1))).drop q) with
    | none => rfl
    | some m =>
      exfalso
      obtain ⟨off2, hoff2n, hoff2p⟩ := hlit _ m hM2
      rw [List.drop_drop, List.drop_drop] at hoff2p
      have hP2len : i + (n' + 1) + (q + off2) < s.length :=
        lt_length_of_prefix_drop urlLit s _ (by decide) hoff2p
      have heq := occ_unique urlLit s hocc (i + off) (i + (n' + 1) + (q + off2))
        hP1len hP2len hoffp hoff2p
      omega
  rw [subAll_single M sqAsgn s i n' hfirst hn hi hafter]
  have hocc_other : ∀ j, sqAsgn <+: s.drop j → j + 3 = i + off := by
    intro j hj
    obtain ⟨rest, hr⟩ := hj
    have hurl : urlLit <+: s.drop (j + 3) := by
      rw [← List.drop_drop, ← hr, List.drop_append_of_le_length (by decide), sqAsgn_drop3]
      rw [List.append_assoc]
      exact List.prefix_append _ _
    have hjlen : j + 3 < s.length := lt_length_of_prefix_drop urlLit s _ (by decide) hurl
    exact occ_unique urlLit s hocc (j + 3) (i + off) hjlen hP1len hurl hoffp
  have hzA : occ sqAsgn (s.take i) = 0 := by
    rw [occ_eq_zero_iff]
    intro q hq hp
    have hqlen : q + 41 ≤ i := by
      have hle := hp.length_le
      rw [List.length_drop, List.length_take] at hle
      have h41 : sqAsgn.length = 41 := sqAsgn_length
      omega
    have htr : (s.take i).drop q <+: s.drop q := by
      rw [List.drop_take]
      exact List.take_prefix _ _
    have := hocc_other q (hp.trans htr)
    omega
  have hzB : occ sqAsgn (s.drop (i + (n' + 1))) = 0 := by
    rw [occ_eq_zero_iff]
    intro q hq hp
    rw [List.drop_drop] at hp
    have := hocc_other (i + (n' + 1) + q) hp
    omega
  rw [List.append_assoc]
  rw [occ_append sqAsgn _ _ (noCross_right sqAsgn _ sqAsgn _ (by decide) (by decide))]
  rw [occ_append sqAsgn sqAsgn _ (noCross_left sqAsgn [] sqAsgn _ (by decide) (by decide))]
  rw [hzA, hzB, sqAsgn_occ_self]

/-- Claim C1 (amended): (a) for every command matching no assignment pattern
    but containing a `docker run` invocation, the URL pass inserts the
    backslash-quoted assignment (the raw-string replacement keeps its
    backslashes) and that text appears exactly once; (b) for every command
    containing the variable name exactly once with some assignment pattern
    matching, the plain single-quoted assignment appears exactly once. -/
theorem c1_url_exactly_once (s : List Char) :
    (hasMatch matchSq s = false → hasMatch matchDq s = false →
     hasMatch matchNq s = false → hasMatch matchDockerRun s = true →
     occ bsAsgn (fix_es_url s) = 1) ∧
    (occ urlLit s = 1 →
     (hasMatch matchSq s = true ∨ hasMatch matchDq s = true ∨
      hasMatch matchNq s = true) →
     occ sqAsgn (fix_es_url s) = 1) := by
  constructor
  · intro h1 h2 h3 h4
    exact fix_es_url_insert_occ s h1 h2 h3 h4
  · intro hocc hpat
    by_cases hsq : hasMatch matchSq s = true
    · unfold fix_es_url
      rw [if_pos hsq]
      exact subAll_url_single matchSq s (fun t n ht => (matchSq_lit t n ht).1) hsq hocc
    · by_cases hdq : hasMatch matchDq s = true
      · unfold fix_es_url
        rw [if_neg hsq, if_pos hdq]
        exact subAll_url_single matchDq s (fun t n ht => (matchDq_lit t n ht).1) hdq hocc
      · have hnq : hasMatch matchNq s = true := by
          rcases hpat with h | h | h
          · exact absurd h hsq
          · exact absurd h hdq
          · exact h
        unfold fix_es_url
        rw [if_neg hsq, if_neg hdq, if_pos hnq]
        exact subAll_url_single matchNq s (fun t n ht => (matchNq_lit t n ht).1) hnq hocc

/-- Claim C1 (witness): a rewritten unquoted assignment yields the plain
    single-quoted text once; an insertion yields the backslash-quoted text
    once. -/
theorem c1_witness :
    occ sqAsgn (fix_es_url ("docker run -e AUTOOPS_ES_URL=http://old:9200 img".data)) = 1 ∧
    occ bsAsgn (fix_es_url ("docker run img".data)) = 1 :=
  ⟨(c1_url_exactly_once _).2 (by decide) (Or.inr (Or.inr (by decide))),
   (c1_url_exactly_once _).1 (by decide) (by decide) (by decide) (by decide)⟩

/-- `--network host` occurs exactly once in the inserted network text. -/
theorem netFlag_occ_ins : occ netFlag (netFlag ++ [' ']) = 1 := by decide

/-- Insertion branch of ensure_host_network: no network flag present but
    `docker run` occurs. -/
theorem ensure_host_network_insert_occ (s : List Char)
    (h5 : hasMatch matchNetwork s = false) (h6 : hasMatch matchNet s = false)
    (h4 : hasMatch matchDockerRun s = true) :
    occ netFlag (ensure_host_network s) = 1 := by
  unfold ensure_host_network
  rw [if_neg (by simp [h5, h6])]
  obtain ⟨i, hi, hsome, hfirst⟩ := exists_first_match matchDockerRun s h4
  obtain ⟨n, hn⟩ := Option.isSome_iff_exists.mp hsome
  rw [subFirstF_first matchDockerRun _ s i n hfirst hn hi]
  have hA : s.take i ++ (s.drop i).take n = s.take (i + n) := (List.take_add s i n).symm
  have hshape : s.take i ++ ((s.drop i).take n ++ netFlag ++ [' ']) ++ s.drop (i + n) =
      s.take (i + n) ++ (netFlag ++ (' ' :: s.drop (i + n))) := by
    rw [← hA]
    simp [List.append_assoc]
  rw [hshape]
  have hocc_any : ∀ j, netFlag <+: s.drop j → False := by
    intro j hj
    have hjlen : j < s.length := lt_length_of_prefix_drop _ s j (by decide) hj
    obtain ⟨rest, hr⟩ := hj
    have hm : (matchNetwork (s.drop j)).isSome = true := by
      rw [← hr]
      exact matchNetwork_isSome_netFlag rest
    obtain ⟨m, hm2⟩ := Option.isSome_iff_exists.mp hm
    have ht := hasMatch_of_match matchNetwork s j m hjlen hm2
    rw [h5] at ht
    exact Bool.false_ne_true ht
  have hzA : occ netFlag (s.take (i + n)) = 0 := by
    rw [occ_eq_zero_iff]
    intro q hq hp
    have htr : (s.take (i + n)).drop q <+: s.drop q := by
      rw [List.drop_take]
      exact List.take_prefix _ _
    exact hocc_any q (hp.trans htr)
  have hzB : occ netFlag (' ' :: s.drop (i + n)) = 0 := by
    rw [occ_eq_zero_iff]
    intro q hq hp
    cases q with
    | zero =>
      obtain ⟨rest, hr⟩ := hp
      rw [show netFlag = '-' :: "-network host".data from rfl, List.cons_append,
        List.drop_zero] at hr
      simp at hr
    | succ q =>
      rw [List.drop_succ_cons, List.drop_drop] at hp
      exact hocc_any (i + n + q) hp
  rw [occ_append netFlag _ _ (noCross_right netFlag _ netFlag _ (by decide) (by decide))]
  have hsplit2 : occ netFlag (netFlag ++ (' ' :: s.drop (i + n))) = 1 := by
    have h2 : netFlag ++ (' ' :: s.drop (i + n)) = (netFlag ++ [' ']) ++ s.drop (i + n) := by
      simp
    rw [h2]
    rw [occ_append netFlag (netFlag ++ [' ']) _ (noCross_left netFlag [] (netFlag ++ [' ']) _
      (by decide) (by decide))]
    have hz : occ netFlag (s.drop (i + n)) = 0 := by
      rw [occ_eq_zero_iff]
      intro q hq hp
      rw [List.drop_drop] at hp
      exact hocc_any (i + n + q) hp
    rw [hz, netFlag_occ_ins]
  rw [hsplit2, hzA]

/-- Counting the fixed network flag after rewriting one slice to it. -/
theorem occ_netFlag_rewrite (s : List Char) (i n : Nat)
    (hz : ∀ q, netFlag <+: s.drop q → q + netFlag.length ≤ i ∨ i + n ≤ q → False) :
    occ netFlag (s.take i ++ netFlag ++ s.drop (i + n)) = 1 := by
  rw [List.append_assoc]
  rw [occ_append netFlag _ _ (noCross_right netFlag _ netFlag _ (by decide) (by decide))]
  rw [occ_append netFlag netFlag _ (noCross_left netFlag [] netFlag _ (by decide) (by decide))]
  have hzA : occ netFlag (s.take i) = 0 := by
    rw [occ_eq_zero_iff]
    intro q hq hp
    have hqlen : q + netFlag.length ≤ i := by
      have hle := hp.length_le
      rw [List.length_drop] at hle
      have hlen2 : (s.take i).length ≤ i := by
        rw [List.length_take]
        exact min_le_left _ _
      omega
    have htr : (s.take i).drop q <+: s.drop q := by
      rw [List.drop_take]
      exact List.take_prefix _ _
    exact hz q (hp.trans htr) (Or.inl hqlen)
  have hzB : occ netFlag (s.drop (i + n)) = 0 := by
    rw [occ_eq_zero_iff]
    intro q hq hp
    rw [List.drop_drop] at hp
    exact hz (i + n + q) hp (Or.inr (by omega))
  rw [hzA, hzB, netFlag_occ_self]

/-- Counting `--net` after rewriting the slice at its unique occurrence. -/
theorem occ_netLit_rewrite (s : List Char) (i n : Nat) (hn : 1 ≤ n)
    (hocc : occ netLit s = 1) (hme : netLit <+: s.drop i) :
    occ netLit (s.take i ++ netFlag ++ s.drop (i + n)) = 1 := by
  have huniq : ∀ q, netLit <+: s.drop q → q = i := by
    intro q hp
    exact occ_unique netLit s hocc q i
      (lt_length_of_prefix_drop _ s q (by decide) hp)
      (lt_length_of_prefix_drop _ s i (by decide) hme) hp hme
  rw [List.append_assoc]
  rw [occ_append netLit _ _ (noCross_right netLit _ netFlag _ (by decide) (by decide))]
  rw [occ_append netLit netFlag _ (noCross_left netLit [] netFlag _ (by decide) (by decide))]
  have hzA : occ netLit (s.take i) = 0 := by
    rw [occ_eq_zero_iff]
    intro q hq hp
    have hqlen : q + netLit.length ≤ i := by
      have hle := hp.length_le
      rw [List.length_drop] at hle
      have hlen2 : (s.take i).length ≤ i := by
        rw [List.length_take]
        exact min_le_left _ _
      omega
    have htr : (s.take i).drop q <+: s.drop q := by
      rw [List.drop_take]
      exact List.take_prefix _ _
    have hqi := huniq q (hp.trans htr)
    have h5 : netLit.length = 5 := by decide
    omega
  have hzB : occ netLit (s.drop (i + n)) = 0 := by
    rw [occ_eq_zero_iff]
    intro q hq hp
    rw [List.drop_drop] at hp
    have := huniq (i + n + q) hp
    omega
  rw [hzA, hzB, netFlag_netLit_occ]

/-- Replace branch of ensure_host_network when `--network <v>` matches:
    both rewrites leave exactly one `--network host`. -/
theorem ensure_host_network_replace_netw (s : List Char)
    (hocc : occ netLit s = 1) (hnw : hasMatch matchNetwork s = true) :
    occ netFlag (ensure_host_network s) = 1 := by
  unfold ensure_host_network
  rw [if_pos (by simp [hnw])]
  obtain ⟨i, hi, hsome, hfirst⟩ := exists_first_match matchNetwork s hnw
  obtain ⟨n, hn⟩ := Option.isSome_iff_exists.mp hsome
  obtain ⟨hlen5, hlit⟩ := matchNetwork_lit _ n hn
  have h5 : netLit.length = 5 := by decide
  obtain ⟨n', rfl⟩ : ∃ n', n = n' + 1 := by
    cases n with
    | zero => omega
    | succ k => exact ⟨k, rfl⟩
  have huniq : ∀ q, netLit <+: s.drop q → q = i := by
    intro q hp
    exact occ_unique netLit s hocc q i
      (lt_length_of_prefix_drop _ s q (by decide) hp)
      (lt_length_of_prefix_drop _ s i (by decide) hlit) hp hlit
  have hafter : ∀ q, q < (s.drop (i + (n' + 1))).length →
      matchNetwork ((s.drop (i + (n' + 1))).drop q) = none := by
    intro q hq
    cases hM2 : matchNetwork ((s.drop (i + (n' + 1))).drop q) with
    | none => rfl
    | some m =>
      exfalso
      obtain ⟨_, hlit2⟩ := matchNetwork_lit _ m hM2
      rw [List.drop_drop] at hlit2
      have := huniq (i + (n' + 1) + q) hlit2
      omega
  rw [subAll_single matchNetwork netFlag s i n' hfirst hn hi hafter]
  set s1 := s.take i ++ netFlag ++ s.drop (i + (n' + 1)) with hs1
  have hocc1 : occ netLit s1 = 1 := occ_netLit_rewrite s i (n' + 1) (by omega) hocc hlit
  have hdropi : s1.drop i = netFlag ++ s.drop (i + (n' + 1)) := by
    rw [hs1, List.append_assoc]
    exact List.drop_left' (by rw [List.length_take]; exact min_eq_left (le_of_lt hi))
  have hme1 : netLit <+: s1.drop i := by
    rw [hdropi]
    exact (by decide : netLit <+: netFlag).trans (List.prefix_append _ _)
  have hnet_none : ∀ j, j < s1.length → matchNet (s1.drop j) = none := by
    intro j hj
    cases hMj : matchNet (s1.drop j) with
    | none => rfl
    | some m =>
      exfalso
      obtain ⟨_, hlitj⟩ := matchNet_lit _ m hMj
      have hji : j = i := occ_unique netLit s1 hocc1 j i hj
        (lt_length_of_prefix_drop _ s1 i (by decide) hme1) hlitj hme1
      rw [hji, hdropi, matchNet_netFlag] at hMj
      exact Option.noConfusion hMj
  rw [subAll_eq_self matchNet netFlag s1 hnet_none]
  apply occ_netFlag_rewrite s i (n' + 1)
  intro q hp hdisj
  have hq := huniq q ((by decide : netLit <+: netFlag).trans hp)
  have h14 : netFlag.length = 14 := by decide
  omega

/-- Replace branch of ensure_host_network when only `--net <v>` matches. -/
theorem ensure_host_network_replace_net (s : List Char)
    (hocc : occ netLit s = 1) (hnw : hasMatch matchNetwork s = false)
    (hnet : hasMatch matchNet s = true) :
    occ netFlag (ensure_host_network s) = 1 := by
  unfold ensure_host_network
  rw [if_pos (by simp [hnet])]
  rw [subAll_eq_self matchNetwork netFlag s (hasMatch_false_all _ _ hnw)]
  obtain ⟨i, hi, hsome, hfirst⟩ := exists_first_match matchNet s hnet
  obtain ⟨n, hn⟩ := Option.isSome_iff_exists.mp hsome
  obtain ⟨hlen5, hlit⟩ := matchNet_lit _ n hn
  have h5 : netLit.length = 5 := by decide
  obtain ⟨n', rfl⟩ : ∃ n', n = n' + 1 := by
    cases n with
    | zero => omega
    | succ k => exact ⟨k, rfl⟩
  have huniq : ∀ q, netLit <+: s.drop q → q = i := by
    intro q hp
    exact occ_unique netLit s hocc q i
      (lt_length_of_prefix_drop _ s q (by decide) hp)
      (lt_length_of_prefix_drop _ s i (by decide) hlit) hp hlit
  have hafter : ∀ q, q < (s.drop (i + (n' + 1))).length →
      matchNet ((s.drop (i + (n' + 1))).drop q) = none := by
    intro q hq
    cases hM2 : matchNet ((s.drop (i + (n' + 1))).drop q) with
    | none => rfl
    | some m =>
      exfalso
      obtain ⟨_, hlit2⟩ := matchNet_lit _ m hM2
      rw [List.drop_drop] at hlit2
      have := huniq (i + (n' + 1) + q) hlit2
      omega
  rw [subAll_single matchNet netFlag s i n' hfirst hn hi hafter]
  apply occ_netFlag_rewrite s i (n' + 1)
  intro q hp _
  have hqlen : q < s.length := lt_length_of_prefix_drop _ s q (by decide) hp
  obtain ⟨rest, hr⟩ := hp
  have hm : (matchNetwork (s.drop q)).isSome = true := by
    rw [← hr]
    exact matchNetwork_isSome_netFlag rest
  obtain ⟨m, hm2⟩ := Option.isSome_iff_exists.mp hm
  have ht := hasMatch_of_match matchNetwork s q m hqlen hm2
  rw [hnw] at ht
  exact Bool.false_ne_true ht

/-- Claim C2 (amended): the network pass yields `--network host` exactly once
    for every command that either (a) has no network flag but a `docker run`
    invocation (the flag is inserted), or (b) contains `--net` exactly once
    with a network-flag pattern matching (the flag is rewritten in place). -/
theorem c2_network_exactly_once (s : List Char)
    (h : (hasMatch matchNetwork s = false ∧ hasMatch matchNet s = false ∧
          hasMatch matchDockerRun s = true) ∨
         (occ netLit s = 1 ∧
          (hasMatch matchNetwork s = true ∨ hasMatch matchNet s = true))) :
    occ netFlag (ensure_host_network s) = 1 := by
  rcases h with ⟨h5, h6, h4⟩ | ⟨hocc, hpat⟩
  · exact ensure_host_network_insert_occ s h5 h6 h4
  · by_cases hnw : hasMatch matchNetwork s = true
    · exact ensure_host_network_replace_netw s hocc hnw
    · have hnw2 : hasMatch matchNetwork s = false := by
        revert hnw
        cases hasMatch matchNetwork s <;> simp
      have hnet : hasMatch matchNet s = true := by
        rcases hpat with h | h
        · exact absurd h hnw
        · exact h
      exact ensure_host_network_replace_net s hocc hnw2 hnet

/-- Claim C2 (witness): a rewritten `--net` flag and an inserted flag. -/
theorem c2_witness :
    occ netFlag (ensure_host_network ("docker run --net bridge img".data)) = 1 ∧
    occ netFlag (ensure_host_network ("docker run img".data)) = 1 :=
  ⟨c2_network_exactly_once _ (Or.inr ⟨by decide, Or.inr (by decide)⟩),
   c2_network_exactly_once _ (Or.inl ⟨by decide, by decide, by decide⟩)⟩

/-- Claim C8 (amended): whichever quoting style an assignment uses, the
    rewrite produces the fixed single-quoted form.  For each of the three
    patterns, taken in the program order (single-quoted first, then
    double-quoted, then unquoted), the leftmost match is replaced by
    `-e AUTOOPS_ES_URL='http://localhost:9200'` and the remainder of the
    command is processed the same way; the original quoting style is not
    preserved. -/
theorem c8_single_quote_always (s : List Char) :
    (∀ i n, (∀ j, j < i → matchSq (s.drop j) = none) → matchSq (s.drop i) = some n →
      i < s.length →
      fix_es_url s = s.take i ++ sqAsgn ++ subAll matchSq sqAsgn (s.drop (i + n))) ∧
    (hasMatch matchSq s = false →
     ∀ i n, (∀ j, j < i → matchDq (s.drop j) = none) → matchDq (s.drop i) = some n →
      i < s.length →
      fix_es_url s = s.take i ++ sqAsgn ++ subAll matchDq sqAsgn (s.drop (i + n))) ∧
    (hasMatch matchSq s = false → hasMatch matchDq s = false →
     ∀ i n, (∀ j, j < i → matchNq (s.drop j) = none) → matchNq (s.drop i) = some n →
      i < s.length →
      fix_es_url s = s.take i ++ sqAsgn ++ subAll matchNq sqAsgn (s.drop (i + n))) := by
  have hul : urlLit.length = 14 := by decide
  refine ⟨?_, ?_, ?_⟩
  · intro i n hfirst hn hi
    have hsq : hasMatch matchSq s = true := hasMatch_of_match matchSq s i n hi hn
    unfold fix_es_url
    rw [if_pos hsq]
    obtain ⟨off, hoffn, _⟩ := (matchSq_lit _ n hn).1
    obtain ⟨n', rfl⟩ : ∃ n', n = n' + 1 := by
      cases n with
      | zero => omega
      | succ k => exact ⟨k, rfl⟩
    exact subAll_first matchSq sqAsgn s i n' hfirst hn hi
  · intro hsqf i n hfirst hn hi
    have hdq : hasMatch matchDq s = true := hasMatch_of_match matchDq s i n hi hn
    unfold fix_es_url
    rw [if_neg (by simp [hsqf]), if_pos hdq]
    obtain ⟨off, hoffn, _⟩ := (matchDq_lit _ n hn).1
    obtain ⟨n', rfl⟩ : ∃ n', n = n' + 1 := by
      cases n with
      | zero => omega
      | succ k => exact ⟨k, rfl⟩
    exact subAll_first matchDq sqAsgn s i n' hfirst hn hi
  · intro hsqf hdqf i n hfirst hn hi
    have hnq : hasMatch matchNq s = true := hasMatch_of_match matchNq s i n hi hn
    unfold fix_es_url
    rw [if_neg (by simp [hsqf]), if_neg (by simp [hdqf]), if_pos hnq]
    obtain ⟨off, hoffn, _⟩ := (matchNq_lit _ n hn).1
    obtain ⟨n', rfl⟩ : ∃ n', n = n' + 1 := by
      cases n with
      | zero => omega
      | succ k => exact ⟨k, rfl⟩
    exact subAll_first matchNq sqAsgn s i n' hfirst hn hi

/-- Claim C8 (witness): a single-quoted, a double-quoted and an unquoted
    assignment are all rewritten to the single-quoted fixed assignment. -/
theorem c8_witness :
    fix_es_url ("docker run -e AUTOOPS_ES_URL=".data ++ sqc ::
        "old".data ++ sqc :: " a".data) =
      ("docker run ".data ++ sqAsgn ++ " a".data) ∧
    fix_es_url ("docker run -e AUTOOPS_ES_URL=".data ++ dqc ::
        "old".data ++ dqc :: " b".data) =
      ("docker run ".data ++ sqAsgn ++ " b".data) ∧
    fix_es_url ("docker run -e AUTOOPS_ES_URL=old c".data) =
      ("docker run ".data ++ sqAsgn ++ " c".data) := by
  refine ⟨?_, ?_, ?_⟩
  · have h := (c8_single_quote_always
      ("docker run -e AUTOOPS_ES_URL=".data ++ sqc :: "old".data ++ sqc :: " a".data)).1
      11 23 (by decide) (by decide) (by decide)
    rw [h]
    decide
  · have h := (c8_single_quote_always
      ("docker run -e AUTOOPS_ES_URL=".data ++ dqc :: "old".data ++ dqc :: " b".data)).2.1
      (by decide) 11 23 (by decide) (by decide) (by decide)
    rw [h]
    decide
  · have h := (c8_single_quote_always
      ("docker run -e AUTOOPS_ES_URL=old c".data)).2.2
      (by decide) (by decide) 11 21 (by decide) (by decide) (by decide)
    rw [h]
    decide

/-- The opening-brace character of the placeholder. -/
def obr : Char := Char.ofNat 123

/-- Brace-free text can never start the placeholder. -/
theorem no_placeholder_prefix (t : List Char) (h : obr ∉ t) (i : Nat) :
    ¬ placeholder <+: t.drop i := by
  intro hp
  obtain ⟨rest, hr⟩ := hp
  have hmem : obr ∈ t.drop i := by
    rw [← hr, show placeholder = obr :: "\x7bid:api_key\x7d\x7d".data from by decide]
    simp
  exact h (List.drop_subset i t hmem)

/-- The literal matcher for the placeholder fails on brace-free text. -/
theorem litMatch_placeholder_none (t : List Char) (h : obr ∉ t) (i : Nat) :
    litMatch placeholder (t.drop i) = none := by
  unfold litMatch
  rw [if_neg]
  rintro ⟨_, hpre⟩
  exact no_placeholder_prefix t h i (List.isPrefixOf_iff_prefix.mp hpre)

/-- str.replace leaves brace-free text unchanged. -/
theorem pyReplace_id_of_no_obr (value r : List Char) (h : obr ∉ r) :
    pyReplace placeholder value r = r := by
  apply subAll_eq_self
  intro i hi
  exact litMatch_placeholder_none r h i

/-- Placeholder-separated segments (proof device for stating which commands
    consist of brace-free text around placeholder occurrences). -/
def interList (sep : List Char) : List (List Char) → List Char
  | [] => []
  | [p] => p
  | p :: q :: rest => p ++ sep ++ interList sep (q :: rest)

/-- Brace-freeness of all segments extends to their interleaving. -/
theorem obr_not_mem_interList (value : List Char) (hv : obr ∉ value) :
    ∀ parts : List (List Char), (∀ p ∈ parts, obr ∉ p) → obr ∉ interList value parts := by
  intro parts
  induction parts with
  | nil => intro _; simp [interList]
  | cons p rest ih =>
    intro h
    cases rest with
    | nil =>
      exact h p (by simp)
    | cons q rest2 =>
      rw [interList]
      intro hmem
      rcases List.mem_append.mp hmem with hm | hm
      · rcases List.mem_append.mp hm with hm2 | hm2
        · exact h p (by simp) hm2
        · exact hv hm2
      · exact ih (fun x hx => h x (by simp [hx])) hm

/-- The scan skips a block in which no position matches. -/
theorem subAll_skip (M : List Char → Option Nat) (r : List Char) :
    ∀ (p t : List Char), (∀ j, j < p.length → M ((p ++ t).drop j) = none) →
      subAll M r (p ++ t) = p ++ subAll M r t := by
  intro p
  induction p with
  | nil => intro t _; rfl
  | cons c cs ih =>
    intro t h
    have h0 : M (c :: (cs ++ t)) = none := by
      have h1 := h 0 (by simp)
      rwa [List.drop_zero, List.cons_append] at h1
    rw [List.cons_append, subAll_cons_nomatch M r _ _ h0]
    rw [ih t (fun j hj => by
      have h2 := h (j + 1) (by simp only [List.length_cons]; omega)
      rwa [List.cons_append, List.drop_succ_cons] at h2)]
    rw [List.cons_append]

/-- In a brace-free block followed by anything, no inner position matches the
    placeholder. -/
theorem litMatch_placeholder_none_in_block (p t : List Char) (hp : obr ∉ p) :
    ∀ j, j < p.length → litMatch placeholder ((p ++ t).drop j) = none := by
  intro j hj
  unfold litMatch
  rw [if_neg]
  rintro ⟨_, hpre⟩
  rw [List.isPrefixOf_iff_prefix] at hpre
  rw [List.drop_append_of_le_length (by omega)] at hpre
  have hne : p.drop j ≠ [] := by
    rw [← List.length_pos, List.length_drop]
    omega
  obtain ⟨d, ds, hds⟩ := List.exists_cons_of_ne_nil hne
  rw [hds, List.cons_append] at hpre
  obtain ⟨rest, hr⟩ := hpre
  rw [show placeholder = obr :: "\x7bid:api_key\x7d\x7d".data from by decide,
    List.cons_append] at hr
  injection hr with hd _
  apply hp
  rw [hd]
  exact List.drop_subset j p (by rw [hds]; simp)

/-- The substitution sends placeholder-separated brace-free segments to
    value-separated segments. -/
theorem pyReplace_interList (value : List Char) :
    ∀ parts : List (List Char), (∀ p ∈ parts, obr ∉ p) →
      pyReplace placeholder value (interList placeholder parts) =
        interList value parts := by
  intro parts
  induction parts with
  | nil => intro _; rfl
  | cons p rest ih =>
    intro h
    cases rest with
    | nil => exact pyReplace_id_of_no_obr value p (h p (by simp))
    | cons q rest2 =>
      rw [show interList placeholder (p :: q :: rest2) =
          p ++ (placeholder ++ interList placeholder (q :: rest2)) from by
        rw [interList]
        simp [List.append_assoc]]
      unfold pyReplace
      rw [subAll_skip (litMatch placeholder) value p _
        (litMatch_placeholder_none_in_block p _ (h p (by simp)))]
      have hm0 : litMatch placeholder
          ((placeholder ++ interList placeholder (q :: rest2)).drop 0) = some (13 + 1) := by
        rw [List.drop_zero]
        unfold litMatch
        rw [if_pos ⟨by decide, List.isPrefixOf_iff_prefix.mpr (List.prefix_append _ _)⟩]
        rfl
      rw [subAll_first (litMatch placeholder) value _ 0 13 (fun j hj => absurd hj (by omega))
        hm0 (by
          rw [List.length_append]
          have hpl : placeholder.length = 14 := by decide
          omega)]
      rw [List.take_zero]
      have hdrop : (placeholder ++ interList placeholder (q :: rest2)).drop (0 + (13 + 1)) =
          interList placeholder (q :: rest2) := by
        rw [show (0 + (13 + 1)) = placeholder.length from by decide]
        exact List.drop_left _ _
      rw [hdrop]
      have ih2 := ih (fun x hx => h x (by simp [hx]))
      unfold pyReplace at ih2
      rw [ih2]
      rw [show interList value (p :: q :: rest2) =
          p ++ value ++ interList value (q :: rest2) from by rw [interList]]
      simp [List.append_assoc]

/-- Claim C3 (amended): on a command made of brace-free segments around the
    placeholder occurrences, with a brace-free credential value, the
    substitution replaces every occurrence by that same value, and the
    placeholder no longer occurs in the output. -/
theorem c3_placeholder_replaced (parts : List (List Char)) (value : List Char)
    (hparts : ∀ p ∈ parts, obr ∉ p) (hvalue : obr ∉ value) :
    pyReplace placeholder value (interList placeholder parts) =
      interList value parts ∧
    occ placeholder (interList value parts) = 0 := by
  refine ⟨pyReplace_interList value parts hparts, ?_⟩
  rw [occ_eq_zero_iff]
  intro i hi hp
  exact no_placeholder_prefix _ (obr_not_mem_interList value hvalue parts hparts) i hp

/-- Claim C3 (witness): one placeholder between two brace-free segments. -/
theorem c3_witness :
    pyReplace placeholder "KEY".data
        (interList placeholder ["docker run -e TOKEN=".data, " img".data]) =
      interList "KEY".data ["docker run -e TOKEN=".data, " img".data] ∧
    occ placeholder (interList "KEY".data ["docker run -e TOKEN=".data, " img".data]) = 0 :=
  c3_placeholder_replaced ["docker run -e TOKEN=".data, " img".data] "KEY".data
    (by decide) (by decide)

/-- `-e` occurs exactly once around an embedded fixed assignment. -/
theorem occ_twoE_decomp (x y : List Char)
    (hx : occ "-e".data x = 0) (hy : occ "-e".data y = 0) :
    occ "-e".data (x ++ sqAsgn ++ y) = 1 := by
  rw [List.append_assoc]
  rw [occ_append "-e".data _ _ (noCross_right "-e".data _ sqAsgn _ (by decide) (by decide))]
  rw [occ_append "-e".data sqAsgn _ (noCross_left "-e".data [] sqAsgn _ (by decide) (by decide))]
  rw [hx, hy]
  rw [show occ "-e".data sqAsgn = 1 from by decide]

/-- `--net` occurs exactly once around an embedded fixed network flag. -/
theorem occ_netLit_decomp (u v : List Char)
    (hu : occ netLit u = 0) (hv : occ netLit v = 0) :
    occ netLit (u ++ netFlag ++ v) = 1 := by
  rw [List.append_assoc]
  rw [occ_append netLit _ _ (noCross_right netLit _ netFlag _ (by decide) (by decide))]
  rw [occ_append netLit netFlag _ (noCross_left netLit [] netFlag _ (by decide) (by decide))]
  rw [hu, hv, netFlag_netLit_occ]

/-- fix_es_url is the identity on a command that already carries the fixed
    single-quoted assignment, provided `-e` occurs nowhere else. -/
theorem fix_es_url_stable (x y : List Char)
    (hx : occ "-e".data x = 0) (hy : occ "-e".data y = 0) :
    fix_es_url (x ++ sqAsgn ++ y) = x ++ sqAsgn ++ y := by
  set r := x ++ sqAsgn ++ y with hr
  have hxlen : (x ++ sqAsgn).length = x.length + 41 := by
    rw [List.length_append, sqAsgn_length]
  have hdropx : r.drop x.length = sqAsgn ++ y := by
    rw [hr, List.append_assoc]
    exact List.drop_left _ _
  have hMx : matchSq (r.drop x.length) = some 41 := by
    rw [hdropx]
    exact matchSq_sqAsgn y
  have hrlen : x.length < r.length := by
    rw [hr, List.append_assoc, List.length_append, List.length_append, sqAsgn_length]
    omega
  have hocc1 : occ "-e".data r = 1 := occ_twoE_decomp x y hx hy
  have hme : "-e".data <+: r.drop x.length := by
    rw [hdropx]
    exact (by decide : "-e".data <+: sqAsgn).trans (List.prefix_append _ _)
  have huniq : ∀ q, "-e".data <+: r.drop q → q = x.length := by
    intro q hp
    exact occ_unique "-e".data r hocc1 q x.length
      (lt_length_of_prefix_drop _ r q (by decide) hp)
      (lt_length_of_prefix_drop _ r x.length (by decide) hme) hp hme
  have hfirst : ∀ j, j < x.length → matchSq (r.drop j) = none := by
    intro j hj
    cases hMj : matchSq (r.drop j) with
    | none => rfl
    | some m =>
      exfalso
      have hhead := (matchSq_lit _ m hMj).2
      have := huniq j hhead
      omega
  have hafter : ∀ q, q < (r.drop (x.length + (40 + 1))).length →
      matchSq ((r.drop (x.length + (40 + 1))).drop q) = none := by
    intro q hq
    cases hMq : matchSq ((r.drop (x.length + (40 + 1))).drop q) with
    | none => rfl
    | some m =>
      exfalso
      have hhead := (matchSq_lit _ m hMq).2
      rw [List.drop_drop] at hhead
      have := huniq (x.length + (40 + 1) + q) hhead
      omega
  have hback : r.take x.length ++ sqAsgn ++ r.drop (x.length + (40 + 1)) = r := by
    have htake : r.take x.length = x := by
      rw [hr, List.append_assoc]
      exact List.take_left x _
    have hdrop2 : r.drop (x.length + (40 + 1)) = y := by
      rw [show x.length + (40 + 1) = (x ++ sqAsgn).length from by rw [hxlen]]
      rw [hr]
      exact List.drop_left _ _
    rw [htake, hdrop2, hr]
  unfold fix_es_url
  rw [if_pos (hasMatch_of_match matchSq r x.length 41 hrlen hMx)]
  rw [subAll_single matchSq sqAsgn r x.length 40 hfirst hMx hrlen hafter]
  rw [hback]

/-- ensure_host_network is the identity on a command that already carries
    `--network host` followed by a space or the end, provided `--net` occurs
    nowhere else. -/
theorem ensure_host_network_stable (u v : List Char)
    (hu : occ netLit u = 0) (hv : occ netLit v = 0)
    (hva : v = [] ∨ ∃ c v2, v = c :: v2 ∧ isSpaceCh c = true) :
    ensure_host_network (u ++ netFlag ++ v) = u ++ netFlag ++ v := by
  set r := u ++ netFlag ++ v with hr
  have hulen : (u ++ netFlag).length = u.length + 14 := by
    rw [List.length_append]
    rfl
  have hdropu : r.drop u.length = netFlag ++ v := by
    rw [hr, List.append_assoc]
    exact List.drop_left _ _
  have hMu : matchNetwork (r.drop u.length) = some 14 := by
    rw [hdropu]
    rcases hva with hnil | ⟨c, v2, hcv, hc⟩
    · rw [hnil]
      exact matchNetwork_netFlag_nil
    · rw [hcv]
      exact matchNetwork_netFlag_space c v2 hc
  have hrlen : u.length < r.length := by
    rw [hr, List.append_assoc, List.length_append, List.length_append]
    have : netFlag.length = 14 := by decide
    omega
  have hocc1 : occ netLit r = 1 := occ_netLit_decomp u v hu hv
  have hme : netLit <+: r.drop u.length := by
    rw [hdropu]
    exact (by decide : netLit <+: netFlag).trans (List.prefix_append _ _)
  have huniq : ∀ q, netLit <+: r.drop q → q = u.length := by
    intro q hp
    exact occ_unique netLit r hocc1 q u.length
      (lt_length_of_prefix_drop _ r q (by decide) hp)
      (lt_length_of_prefix_drop _ r u.length (by decide) hme) hp hme
  have hfirst : ∀ j, j < u.length → matchNetwork (r.drop j) = none := by
    intro j hj
    cases hMj : matchNetwork (r.drop j) with
    | none => rfl
    | some m =>
      exfalso
      have hhead := (matchNetwork_lit _ m hMj).2
      have := huniq j hhead
      omega
  have hafter : ∀ q, q < (r.drop (u.length + (13 + 1))).length →
      matchNetwork ((r.drop (u.length + (13 + 1))).drop q) = none := by
    intro q hq
    cases hMq : matchNetwork ((r.drop (u.length + (13 + 1))).drop q) with
    | none => rfl
    | some m =>
      exfalso
      have hhead := (matchNetwork_lit _ m hMq).2
      rw [List.drop_drop] at hhead
      have := huniq (u.length + (13 + 1) + q) hhead
      omega
  have hback : r.take u.length ++ netFlag ++ r.drop (u.length + (13 + 1)) = r := by
    have htake : r.take u.length = u := by
      rw [hr, List.append_assoc]
      exact List.take_left u _
    have hdrop2 : r.drop (u.length + (13 + 1)) = v := by
      rw [show u.length + (13 + 1) = (u ++ netFlag).length from by rw [hulen]]
      rw [hr]
      exact List.drop_left _ _
    rw [htake, hdrop2, hr]
  have hnet_none : ∀ j, j < r.length → matchNet (r.drop j) = none := by
    intro j hj
    cases hMj : matchNet (r.drop j) with
    | none => rfl
    | some m =>
      exfalso
      have hhead := (matchNet_lit _ m hMj).2
      have hji := huniq j hhead
      rw [hji, hdropu, matchNet_netFlag] at hMj
      exact Option.noConfusion hMj
  unfold ensure_host_network
  rw [if_pos (by
    rw [hasMatch_of_match matchNetwork r u.length 14 hrlen hMu]
    rfl)]
  rw [subAll_single matchNetwork netFlag r u.length 13 hfirst hMu hrlen hafter]
  rw [hback]
  rw [subAll_eq_self matchNet netFlag r hnet_none]

/-- Claim C4 (amended): the composed normalization applied twice equals a
    single application, for every command and value whose once-normalized
    result is brace-free, carries the fixed single-quoted assignment with no
    other `-e` around it, and carries `--network host` (followed by
    whitespace or the end) with no other `--net` around it. -/
theorem c4_normalize_idempotent (s value x y u v : List Char)
    (hxy : normalizeCommand value s = x ++ sqAsgn ++ y)
    (huv : normalizeCommand value s = u ++ netFlag ++ v)
    (hobr : obr ∉ normalizeCommand value s)
    (hx : occ "-e".data x = 0) (hy : occ "-e".data y = 0)
    (hu : occ netLit u = 0) (hv : occ netLit v = 0)
    (hva : v = [] ∨ ∃ c v2, v = c :: v2 ∧ isSpaceCh c = true) :
    normalizeCommand value (normalizeCommand value s) = normalizeCommand value s := by
  have h1 : pyReplace placeholder value (normalizeCommand value s) =
      normalizeCommand value s :=
    pyReplace_id_of_no_obr value _ hobr
  have h2 : fix_es_url (normalizeCommand value s) = normalizeCommand value s := by
    rw [hxy]
    exact fix_es_url_stable x y hx hy
  have h3 : ensure_host_network (normalizeCommand value s) = normalizeCommand value s := by
    rw [huv]
    exact ensure_host_network_stable u v hu hv hva
  show ensure_host_network (fix_es_url (pyReplace placeholder value
    (normalizeCommand value s))) = normalizeCommand value s
  rw [h1, h2, h3]

/-- Claim C4 (witness): idempotence on a concrete docker-run command whose
    unquoted assignment is rewritten in place to the single-quoted form. -/
theorem c4_witness :
    normalizeCommand "KEY".data
        (normalizeCommand "KEY".data
          ("docker run --name agent -e AUTOOPS_ES_URL=old --net bridge img".data)) =
      normalizeCommand "KEY".data
        ("docker run --name agent -e AUTOOPS_ES_URL=old --net bridge img".data) :=
  c4_normalize_idempotent
    ("docker run --name agent -e AUTOOPS_ES_URL=old --net bridge img".data) "KEY".data
    ("docker run --name agent ".data) (" --network host img".data)
    ("docker run --name agent ".data ++ sqAsgn ++ [' ']) (" img".data)
    (by decide) (by decide) (by decide)
    (by decide) (by decide) (by decide) (by decide)
    (Or.inr ⟨' ', "img".data, by decide, by decide⟩)
